import Mathlib

/-!
Verification development for the replay-discord-bot audio core.

The Lean definitions below are a shallow embedding of the Go sources:
- `Circular` models `bot/circular` (the fixed-capacity ring buffer `Buffer`,
  its `Add`, `Reset`, `WithIterator` and `Iterator.HasNext`/`Next`);
- `Ogg` models `bot/ogg` (page framing, segment tables, the table-driven
  CRC-32, the Opus identification/comment headers and the `Encoder`);
- `Replayfile` models `bot/replayfile` (the stream synchronizer
  `Creator.createStreamFiles` and the `NoAudioData` outcome of `create`).

Machine integers are embedded as `Nat`/`Int` with explicit `% 2^w` where Go
overflow/conversion semantics matter; Go's truncating 64-bit division is
`Int.tdiv`.  Partial Go functions (which `panic`) return `Option`.
-/

namespace Circular

/-- Capacity of the ring buffer: Go `const SIZE = 30 * 60 / 0.02` (exact
constant arithmetic, 30 minutes of 20 ms segments). -/
def SIZE : Int := 90000

/-- One stored packet: `AudioPacket` in `bot/circular`.  `Time` is modelled
as nanoseconds (`Int`), `SSRC` and `PCMIndex` (both `uint32`) as `Nat`,
`Opus` as the list of payload bytes. -/
structure AudioPacket where
  time : Int
  ssrc : Nat
  pcmIndex : Nat
  opus : List Nat
deriving DecidableEq, Repr, Inhabited

/-- The ring buffer.  The backing array `buffer [SIZE]AudioPacket` is
modelled as a total function from (Go `int`) indices; `size` and
`nextPosition` are the Go `int` fields. -/
structure Buffer where
  store : Int → AudioPacket
  size : Int
  nextPosition : Int

/-- The zero value of `Buffer` (Go: zero value is an empty buffer). -/
def Buffer.empty : Buffer :=
  { store := fun _ => default, size := 0, nextPosition := 0 }

/-- `Buffer.Add`: write the packet at `nextPosition`, grow `size` while
below capacity, advance and wrap the cursor. -/
def Buffer.add (b : Buffer) (p : AudioPacket) : Buffer :=
  let store := fun i => if i = b.nextPosition then p else b.store i
  let size := if b.size < SIZE then b.size + 1 else b.size
  let np := b.nextPosition + 1
  { store := store, size := size,
    nextPosition := if np ≥ SIZE then 0 else np }

/-- `Buffer.Reset`: discard all held packets. -/
def Buffer.reset (b : Buffer) : Buffer :=
  { b with size := 0, nextPosition := 0 }

/-- The start index computed by `Buffer.WithIterator`:
`position := nextPosition - size; if position < 0 { position += SIZE }`. -/
def Buffer.startPosition (b : Buffer) : Int :=
  let position := b.nextPosition - b.size
  if position < 0 then position + SIZE else position

/-- An iterator as handed to the `WithIterator` callback. -/
structure Iterator where
  buffer : Buffer
  position : Int
  count : Int

/-- The iterator `WithIterator` passes to its callback. -/
def Buffer.iter (b : Buffer) : Iterator :=
  { buffer := b, position := b.startPosition, count := b.size }

/-- `Iterator.HasNext`: `count > 0`. -/
def Iterator.hasNext (i : Iterator) : Bool := i.count > 0

/-- `Iterator.Next`.  The Go code panics on an exhausted iterator; the
panic is embedded as `none`.  Otherwise it reads the current slot,
advances the position with wraparound and decrements `count`. -/
def Iterator.next (i : Iterator) : Option (AudioPacket × Iterator) :=
  if i.hasNext then
    let v := i.buffer.store i.position
    let pos := i.position + 1
    some (v, { i with position := if pos ≥ SIZE then 0 else pos,
                      count := i.count - 1 })
  else
    none

/-- Repeatedly calling `Next` (with fuel), collecting the yielded packets;
a `none` from `next` stops the drain. -/
def Iterator.drain : Iterator → Nat → List AudioPacket
  | _, 0 => []
  | it, n + 1 =>
    match it.next with
    | none => []
    | some (v, it') => v :: it'.drain n

/-- The positions read by successive `Next` calls (the array indices the
iterator dereferences). -/
def Iterator.drainPositions : Iterator → Nat → List Int
  | _, 0 => []
  | it, n + 1 =>
    match it.next with
    | none => []
    | some (_, it') => it.position :: it'.drainPositions n

/-- The full snapshot a `WithIterator` callback can observe by looping
`for iterator.HasNext() { iterator.Next() }`. -/
def Buffer.snapshotList (b : Buffer) : List AudioPacket :=
  b.iter.drain b.size.toNat

/-- The structural invariant of a reachable buffer. -/
def BufferInv (b : Buffer) : Prop :=
  0 ≤ b.size ∧ b.size ≤ SIZE ∧ 0 ≤ b.nextPosition ∧ b.nextPosition < SIZE

/-- An ingestion-path operation on the buffer. -/
inductive Op where
  | add (p : AudioPacket)
  | reset
deriving Repr

/-- Apply one operation. -/
def applyOp (b : Buffer) : Op → Buffer
  | .add p => b.add p
  | .reset => b.reset

theorem bufferInv_empty : BufferInv Buffer.empty := by
  refine ⟨le_refl 0, by norm_num [Buffer.empty, SIZE], le_refl 0, by norm_num [Buffer.empty, SIZE]⟩

theorem bufferInv_add {b : Buffer} (h : BufferInv b) (p : AudioPacket) :
    BufferInv (b.add p) := by
  have hS : SIZE = 90000 := rfl
  obtain ⟨h1, h2, h3, h4⟩ := h
  unfold Buffer.add BufferInv
  dsimp only
  refine ⟨?_, ?_, ?_, ?_⟩ <;> split <;> omega

theorem bufferInv_reset {b : Buffer} (_ : BufferInv b) : BufferInv b.reset := by
  refine ⟨le_refl 0, by norm_num [Buffer.reset, SIZE], le_refl 0, by norm_num [Buffer.reset, SIZE]⟩

theorem bufferInv_foldl (ops : List Op) :
    BufferInv (ops.foldl applyOp Buffer.empty) := by
  suffices h : ∀ b, BufferInv b → BufferInv (ops.foldl applyOp b) from
    h Buffer.empty bufferInv_empty
  induction ops with
  | nil => exact fun b hb => hb
  | cons op rest ih =>
    intro b hb
    cases op with
    | add p => exact ih _ (bufferInv_add hb p)
    | reset => exact ih _ (bufferInv_reset hb)

theorem startPosition_range {b : Buffer} (h : BufferInv b) :
    0 ≤ b.startPosition ∧ b.startPosition < SIZE := by
  obtain ⟨h1, h2, h3, h4⟩ := h
  unfold Buffer.startPosition
  dsimp only
  split <;> omega

theorem next_position_range {it : Iterator} {v : AudioPacket} {it' : Iterator}
    (h : 0 ≤ it.position ∧ it.position < SIZE) (hn : it.next = some (v, it')) :
    0 ≤ it'.position ∧ it'.position < SIZE := by
  have hS : SIZE = 90000 := rfl
  unfold Iterator.next at hn
  split at hn
  · simp only [Option.some.injEq, Prod.mk.injEq] at hn
    obtain ⟨-, rfl⟩ := hn
    dsimp only
    split <;> omega
  · exact absurd hn (by simp)

theorem drainPositions_range {it : Iterator}
    (h : 0 ≤ it.position ∧ it.position < SIZE) (n : Nat) :
    ∀ q ∈ it.drainPositions n, 0 ≤ q ∧ q < SIZE := by
  induction n generalizing it with
  | zero => intro q hq; simp [Iterator.drainPositions] at hq
  | succ n ih =>
    intro q hq
    unfold Iterator.drainPositions at hq
    cases hn : it.next with
    | none => rw [hn] at hq; simp at hq
    | some pr =>
      obtain ⟨v, it'⟩ := pr
      rw [hn] at hq
      simp only [List.mem_cons] at hq
      rcases hq with rfl | hq
      · exact h
      · exact ih (next_position_range h hn) _ hq

/-- Abstraction relation: buffer `b` is the state reached by adding the
packets of `l` (in order) to the empty buffer.  Slot `i % SIZE` holds the
`i`-th inserted packet for every `i` in the last capacity-window of `l`. -/
def RepList (b : Buffer) (l : List AudioPacket) : Prop :=
  b.size = ((min l.length 90000 : Nat) : Int) ∧
  b.nextPosition = ((l.length % 90000 : Nat) : Int) ∧
  ∀ i : Nat, (hi : i < l.length) → l.length ≤ i + 90000 →
    b.store ((i % 90000 : Nat) : Int) = l.get ⟨i, hi⟩

theorem repList_empty : RepList Buffer.empty [] := by
  refine ⟨rfl, rfl, ?_⟩
  intro i hi
  simp at hi

theorem repList_add {b : Buffer} {l : List AudioPacket} (h : RepList b l)
    (p : AudioPacket) : RepList (b.add p) (l ++ [p]) := by
  obtain ⟨hsize, hnp, hstore⟩ := h
  have hS : SIZE = 90000 := rfl
  refine ⟨?_, ?_, ?_⟩
  · show (if b.size < SIZE then b.size + 1 else b.size) = _
    rw [hsize, hS]
    simp only [List.length_append, List.length_singleton]
    split <;> omega
  · show (if b.nextPosition + 1 ≥ SIZE then 0 else b.nextPosition + 1) = _
    rw [hnp, hS]
    simp only [List.length_append, List.length_singleton]
    split <;> omega
  · intro i hi hwin
    simp only [List.length_append, List.length_singleton] at hi hwin
    show (if ((i % 90000 : Nat) : Int) = b.nextPosition then p else b.store _) = _
    rw [hnp]
    rcases Nat.lt_or_ge i l.length with hlt | hge
    · rw [if_neg (by push_cast; omega)]
      rw [hstore i hlt (by omega)]
      exact (List.get_append_left _ _ _).symm
    · have hieq : i = l.length := by omega
      subst hieq
      rw [if_pos rfl]
      have : (l ++ [p]).get ⟨l.length, by simp⟩ = p := by
        simp
      rw [this]

theorem repList_foldl (ps : List AudioPacket) :
    RepList (ps.foldl Buffer.add Buffer.empty) ps := by
  suffices h : ∀ b l, RepList b l → RepList (ps.foldl Buffer.add b) (l ++ ps) by
    simpa using h Buffer.empty [] repList_empty
  induction ps with
  | nil => intro b l hb; simpa using hb
  | cons p rest ih =>
    intro b l hb
    have := ih (b.add p) (l ++ [p]) (repList_add hb p)
    simpa using this

theorem startPosition_repList {b : Buffer} {l : List AudioPacket}
    (h : RepList b l) :
    b.startPosition = (((l.length - 90000) % 90000 : Nat) : Int) := by
  obtain ⟨hsize, hnp, -⟩ := h
  have hS : SIZE = 90000 := rfl
  unfold Buffer.startPosition
  rw [hsize, hnp, hS]
  dsimp only
  split <;> push_cast <;> omega

theorem drain_repList {b : Buffer} {l : List AudioPacket} (h : RepList b l) :
    ∀ (m j s : Nat), j + m = min l.length 90000 → s = l.length - 90000 + j →
      Iterator.drain ⟨b, ((s % 90000 : Nat) : Int), (m : Int)⟩ m
        = (l.drop s).take m := by
  obtain ⟨hsize, hnp, hstore⟩ := h
  intro m
  induction m with
  | zero => intro j s _ _; simp [Iterator.drain]
  | succ m ih =>
    intro j s hjm hs
    have hS : SIZE = 90000 := rfl
    have hidx : s < l.length := by omega
    have hwin : l.length ≤ s + 90000 := by omega
    unfold Iterator.drain Iterator.next
    rw [if_pos (show Iterator.hasNext _ = true by
      simp only [Iterator.hasNext, gt_iff_lt, decide_eq_true_eq]
      push_cast
      omega)]
    dsimp only
    rw [hstore s hidx hwin]
    have harith : (if ((s % 90000 : Nat) : Int) + 1 ≥ SIZE then (0 : Int)
        else ((s % 90000 : Nat) : Int) + 1)
        = (((s + 1) % 90000 : Nat) : Int) := by
      rw [hS]; split <;> push_cast <;> omega
    have hcnt : ((m + 1 : Nat) : Int) - 1 = (m : Nat) := by push_cast; omega
    rw [harith, hcnt, ih (j + 1) (s + 1) (by omega) (by omega)]
    rw [List.drop_eq_getElem_cons hidx]
    simp only [List.take_succ_cons]
    simp [List.get_eq_getElem]

theorem snapshotList_eq_drop (ps : List AudioPacket) :
    (ps.foldl Buffer.add Buffer.empty).snapshotList
      = ps.drop (ps.length - 90000) := by
  have hrep := repList_foldl ps
  have hstart := startPosition_repList hrep
  have hdrain := drain_repList hrep (min ps.length 90000) 0 (ps.length - 90000)
    (by omega) (by omega)
  obtain ⟨hsize, -, -⟩ := hrep
  unfold Buffer.snapshotList Buffer.iter
  rw [hstart, hsize]
  have htn : (((min ps.length 90000 : Nat) : Int)).toNat = min ps.length 90000 := by
    omega
  rw [htn, hdrain]
  exact List.take_of_length_le (by rw [List.length_drop]; omega)

end Circular

namespace Ogg

/-- `maxSegmentLength` in `bot/ogg/page.go`. -/
def maxSegmentLength : Nat := 255

/-- `pageHeader` in `bot/ogg/page.go`.  The granule position is a Go
`int64`, embedded as `Int`; the `uint32` fields as `Nat`. -/
structure PageHeader where
  continued : Bool
  firstPage : Bool
  lastPage : Bool
  granulePosition : Int
  bitstreamSerialNumber : Nat
  pageSequenceNumber : Nat
  segmentTable : List Nat
deriving DecidableEq, Repr

/-- `page` in `bot/ogg/page.go`: a header plus the concatenated segment
bytes. -/
structure Page where
  header : PageHeader
  segments : List Nat
deriving DecidableEq, Repr

/-- `page.AddSegment`.  The two Go `panic`s (segment longer than 255
bytes, segment table already holding 255 entries) are embedded as
`none`. -/
def Page.addSegment (p : Page) (segment : List Nat) : Option Page :=
  if segment.length > maxSegmentLength then none
  else if p.header.segmentTable.length == 255 then none
  else some
    { header := { p.header with
        segmentTable := p.header.segmentTable ++ [segment.length] },
      segments := p.segments ++ segment }

/-- The polynomial of `crcChecksum` in `bot/ogg/page.go`. -/
def crcPoly : Nat := 0x04c11db7

/-- One iteration of the inner loop of `crcChecksum` (a Go `uint32`
shift-and-conditional-xor step, i.e. modulo `2^32`). -/
def crcStep (r : Nat) : Nat :=
  if r.testBit 31 then ((r <<< 1) ^^^ crcPoly) % 2 ^ 32 else (r <<< 1) % 2 ^ 32

/-- Entry `i` of the statically computed 256-entry table `crcTable`:
`uint32(i) << 24` put through eight `crcStep`s. -/
def crcTable (i : Nat) : Nat := crcStep^[8] (i <<< 24)

/-- One step of the checksum loop in `page.Encode`:
`checksum = (checksum << 8) ^ crcTable[byte(checksum >> 24) ^ b]`
(with the Go `byte` conversions made explicit as `% 256`). -/
def crcFoldStep (crc b : Nat) : Nat :=
  ((crc <<< 8) ^^^ crcTable ((((crc >>> 24) % 256) ^^^ (b % 256)) % 256)) % 2 ^ 32

/-- The table-driven checksum of a byte sequence, as `page.Encode`
computes it (initial value 0). -/
def crcFold (bytes : List Nat) : Nat := bytes.foldl crcFoldStep 0

/-- Little-endian serialization of `v` on `n` bytes (what
`binary.Write(..., binary.LittleEndian, v)` produces for the fixed-width
unsigned types, value taken modulo `2^(8n)`). -/
def toLE : Nat → Nat → List Nat
  | 0, _ => []
  | n + 1, v => v % 256 :: toLE n (v / 256)

/-- The `header_type` byte assembled from the three page flags. -/
def headerTypeByte (h : PageHeader) : Nat :=
  (if h.continued then 1 else 0) |||
  (if h.firstPage then 2 else 0) |||
  (if h.lastPage then 4 else 0)

/-- Little-endian two's-complement serialization of the `int64` granule
position. -/
def granuleBytes (g : Int) : List Nat := toLE 8 (g % (2 ^ 64 : Int)).toNat

/-- `pageHeader.EncodeWithCRC`: the 27-byte fixed header followed by the
segment table (the `page_segments` count byte is the Go `uint8`
conversion of the table length). -/
def PageHeader.encodeWithCRC (h : PageHeader) (crc : Nat) : List Nat :=
  [0x4F, 0x67, 0x67, 0x53] ++ [0] ++ [headerTypeByte h] ++
  granuleBytes h.granulePosition ++
  toLE 4 h.bitstreamSerialNumber ++
  toLE 4 h.pageSequenceNumber ++
  toLE 4 crc ++
  [h.segmentTable.length % 256] ++
  h.segmentTable

/-- `page.EncodeWithCRC`: header then all segment bytes. -/
def Page.encodeWithCRC (p : Page) (crc : Nat) : List Nat :=
  p.header.encodeWithCRC crc ++ p.segments

/-- `page.Encode`: serialize once with a zero checksum field, fold the
CRC table over those bytes, then serialize with the resulting checksum. -/
def Page.encode (p : Page) : List Nat :=
  p.encodeWithCRC (crcFold (p.encodeWithCRC 0))

/-- `BitstreamSerialNumber` in `bot/ogg/encoder.go` (the constant logical
stream id). -/
def BitstreamSerialNumber : Nat := 1

/-- The ≤255-byte slices `bitstreamEncoder.Encode` cuts `packetData`
into (`for i := 0; i < len(packetData); i += maxSegmentLength`). -/
def chunks (l : List Nat) : List (List Nat) :=
  match l with
  | [] => []
  | x :: xs => (x :: xs).take 255 :: chunks ((x :: xs).drop 255)
termination_by l.length
decreasing_by simp; omega

/-- The empty page `bitstreamEncoder.Encode` starts from: never
continued, never last, fixed serial number, current sequence number. -/
def newPacketPage (firstPage : Bool) (seq : Nat) (granule : Int) : Page :=
  { header := { continued := false, firstPage := firstPage, lastPage := false,
                granulePosition := granule,
                bitstreamSerialNumber := BitstreamSerialNumber,
                pageSequenceNumber := seq, segmentTable := [] },
    segments := [] }

/-- The page `bitstreamEncoder.Encode` builds for one packet: all
≤255-byte chunks added as segments, plus a zero-length segment whenever
the payload length is an exact multiple of 255. -/
def buildPacketPage (firstPage : Bool) (seq : Nat) (packetData : List Nat)
    (granule : Int) : Option Page :=
  match (chunks packetData).foldlM Page.addSegment
      (newPacketPage firstPage seq granule) with
  | none => none
  | some p =>
    if packetData.length % maxSegmentLength == 0 then p.addSegment []
    else some p

theorem chunks_flatten (l : List Nat) : (chunks l).flatten = l := by
  induction l using chunks.induct with
  | case1 => rw [chunks]; rfl
  | case2 x xs ih =>
    rw [chunks]
    simp only [List.flatten_cons, ih, List.take_append_drop]

theorem chunks_length_le (l : List Nat) : ∀ c ∈ chunks l, c.length ≤ 255 := by
  induction l using chunks.induct with
  | case1 => rw [chunks]; intro c hc; simp at hc
  | case2 x xs ih =>
    rw [chunks]
    intro c hc
    rcases List.mem_cons.mp hc with rfl | hc
    · simpa using List.length_take_le 255 (x :: xs)
    · exact ih c hc

theorem chunks_map_length (l : List Nat) :
    (chunks l).map List.length
      = List.replicate (l.length / 255) 255
        ++ (if l.length % 255 = 0 then [] else [l.length % 255]) := by
  induction l using chunks.induct with
  | case1 => rw [chunks]; simp
  | case2 x xs ih =>
    rw [chunks]
    simp only [List.map_cons, ih, List.length_take, List.length_drop,
      List.length_cons]
    rcases Nat.lt_trichotomy (xs.length + 1) 255 with hlt | heq | hgt
    · have h1 : min 255 (xs.length + 1) = xs.length + 1 := by omega
      have h2 : xs.length + 1 - 255 = 0 := by omega
      have h3 : (xs.length + 1) / 255 = 0 := by omega
      have h4 : (xs.length + 1) % 255 = xs.length + 1 := by omega
      rw [h1, h2, h3, h4, if_pos rfl, if_neg (by omega)]
      simp
    · rw [heq]
      norm_num
    · have h1 : min 255 (xs.length + 1) = 255 := by omega
      have h2 : (xs.length + 1 - 255) / 255 + 1 = (xs.length + 1) / 255 := by
        omega
      have h3 : (xs.length + 1 - 255) % 255 = (xs.length + 1) % 255 := by
        omega
      rw [h1, h3, ← h2, List.replicate_succ]
      simp

theorem foldlM_addSegment (segs : List (List Nat)) :
    ∀ (p : Page), (∀ s ∈ segs, s.length ≤ 255) →
      p.header.segmentTable.length + segs.length ≤ 255 →
      segs.foldlM Page.addSegment p = some
        { header := { p.header with
            segmentTable := p.header.segmentTable ++ segs.map List.length },
          segments := p.segments ++ segs.flatten } := by
  induction segs with
  | nil =>
    intro p _ _
    simp [List.foldlM_nil]
  | cons s rest ih =>
    intro p hlen hcount
    simp only [List.length_cons] at hcount
    have hseg : Page.addSegment p s = some
        { header := { p.header with
            segmentTable := p.header.segmentTable ++ [s.length] },
          segments := p.segments ++ s } := by
      unfold Page.addSegment
      have h1 : s.length ≤ 255 := hlen s (List.mem_cons_self s rest)
      rw [if_neg (by simp only [maxSegmentLength]; omega),
        if_neg (by simp only [beq_iff_eq]; omega)]
    rw [List.foldlM_cons, hseg]
    show rest.foldlM Page.addSegment _ = _
    rw [ih _ (fun t ht => hlen t (List.mem_cons_of_mem s ht))
      (by simp only [List.length_append, List.length_singleton]; omega)]
    simp [List.append_assoc]

theorem buildPacketPage_eq (firstPage : Bool) (seq : Nat) (g : Int)
    (data : List Nat) (h : data.length ≤ 65024) :
    buildPacketPage firstPage seq data g = some
      { header := { continued := false, firstPage := firstPage,
                    lastPage := false, granulePosition := g,
                    bitstreamSerialNumber := 1, pageSequenceNumber := seq,
                    segmentTable := List.replicate (data.length / 255) 255
                      ++ [data.length % 255] },
        segments := data } := by
  have hq : data.length / 255 ≤ 254 := by omega
  have hcnt : (chunks data).length
      = data.length / 255 + (if data.length % 255 = 0 then 0 else 1) := by
    have := congrArg List.length (chunks_map_length data)
    simpa [List.length_append, apply_ite List.length] using this
  have hfold : (chunks data).foldlM Page.addSegment
      (newPacketPage firstPage seq g) = some
        { header := { continued := false, firstPage := firstPage,
                      lastPage := false, granulePosition := g,
                      bitstreamSerialNumber := 1, pageSequenceNumber := seq,
                      segmentTable := (chunks data).map List.length },
          segments := (chunks data).flatten } := by
    rw [foldlM_addSegment (chunks data) (newPacketPage firstPage seq g)
      (chunks_length_le data)
      (by
        show 0 + (chunks data).length ≤ 255
        rw [hcnt]
        by_cases hz : data.length % 255 = 0
        · rw [if_pos hz]; omega
        · rw [if_neg hz]; omega)]
    rfl
  unfold buildPacketPage
  rw [hfold]
  dsimp only
  rw [chunks_map_length, chunks_flatten]
  by_cases hz : data.length % 255 = 0
  · have hbeq : (data.length % maxSegmentLength == 0) = true := by
      simp [maxSegmentLength, hz]
    rw [hbeq, if_pos rfl]
    unfold Page.addSegment
    rw [if_neg (by simp [maxSegmentLength])]
    rw [if_neg (by
      show ¬ ((List.replicate (data.length / 255) 255
        ++ (if data.length % 255 = 0 then ([] : List Nat)
            else [data.length % 255])).length == 255) = true
      rw [if_pos hz]
      simp only [List.append_nil, List.length_replicate, beq_iff_eq]
      omega)]
    simp [hz]
  · have hbeq : (data.length % maxSegmentLength == 0) = false := by
      simp [maxSegmentLength, hz]
    rw [hbeq]
    simp only [Bool.false_eq_true, if_false, Option.some.injEq]
    rw [if_neg hz]

/-- One byte of a bit-serial MSB-first CRC-32 update, written from the
spec's description of the checksum ("CRC-32, polynomial 0x04C11DB7,
MSB-first, computed over the page with the checksum field zeroed"): the
byte is xor-ed into the top 8 bits of the register, then eight
shift-and-conditional-xor steps are applied. -/
def crcByteStep (crc b : Nat) : Nat :=
  crcStep^[8] ((crc ^^^ ((b % 256) <<< 24)) % 2 ^ 32)

/-- The bit-serial MSB-first CRC-32 of a byte sequence with initial
register 0 and no final xor (the spec-level checksum definition). -/
def crcOfBytes (bytes : List Nat) : Nat := bytes.foldl crcByteStep 0

theorem xor_mod_two_pow (a b n : Nat) :
    (a ^^^ b) % 2 ^ n = (a % 2 ^ n) ^^^ (b % 2 ^ n) := by
  apply Nat.eq_of_testBit_eq
  intro i
  simp only [Nat.testBit_mod_two_pow, Nat.testBit_xor]
  by_cases h : i < n <;> simp [h]

theorem shiftLeft_xor_distrib (a b k : Nat) :
    (a ^^^ b) <<< k = (a <<< k) ^^^ (b <<< k) := by
  apply Nat.eq_of_testBit_eq
  intro i
  simp only [Nat.testBit_shiftLeft, Nat.testBit_xor]
  by_cases h : i ≥ k <;> simp [h]

theorem xor_xor_cancel (x y P : Nat) : (x ^^^ P) ^^^ (y ^^^ P) = x ^^^ y := by
  apply Nat.eq_of_testBit_eq
  intro i
  simp only [Nat.testBit_xor]
  cases hx : x.testBit i <;> cases hy : y.testBit i <;>
    cases hp : P.testBit i <;> rfl

theorem xor_right_comm (x y z : Nat) : (x ^^^ y) ^^^ z = (x ^^^ z) ^^^ y := by
  apply Nat.eq_of_testBit_eq
  intro i
  simp only [Nat.testBit_xor]
  cases x.testBit i <;> cases y.testBit i <;> cases z.testBit i <;> rfl

theorem crcStep_lt (r : Nat) : crcStep r < 2 ^ 32 := by
  unfold crcStep
  split <;> exact Nat.mod_lt _ (by norm_num)

theorem crcStep_xor (a b : Nat) :
    crcStep (a ^^^ b) = crcStep a ^^^ crcStep b := by
  unfold crcStep
  have h3 := Nat.testBit_xor a b 31
  cases h1 : a.testBit 31 <;> cases h2 : b.testBit 31 <;>
    rw [h1, h2] at h3 <;> simp only [Bool.bne_false, Bool.bne_true,
      Bool.not_false, Bool.not_true] at h3 <;> rw [h3] <;>
    repeat first | rw [if_pos rfl] | rw [if_neg Bool.false_ne_true]
  · rw [shiftLeft_xor_distrib, xor_mod_two_pow]
  · rw [← xor_mod_two_pow, shiftLeft_xor_distrib, Nat.xor_assoc]
  · rw [← xor_mod_two_pow, shiftLeft_xor_distrib, xor_right_comm,
      Nat.xor_assoc]
  · rw [← xor_mod_two_pow, xor_xor_cancel, shiftLeft_xor_distrib]

theorem crcStep_iter_xor (k a b : Nat) :
    crcStep^[k] (a ^^^ b) = crcStep^[k] a ^^^ crcStep^[k] b := by
  induction k generalizing a b with
  | zero => rfl
  | succ k ih =>
    rw [Function.iterate_succ_apply, Function.iterate_succ_apply,
      Function.iterate_succ_apply, crcStep_xor, ih]

theorem crcStep_iter_lt (k r : Nat) (hk : 0 < k) : crcStep^[k] r < 2 ^ 32 := by
  obtain ⟨k, rfl⟩ := Nat.exists_eq_succ_of_ne_zero (Nat.pos_iff_ne_zero.mp hk)
  rw [Function.iterate_succ_apply']
  exact crcStep_lt _

theorem crcStep_of_lt {c : Nat} (h : c < 2 ^ 31) : crcStep c = c * 2 := by
  unfold crcStep
  rw [if_neg (by simp [Nat.testBit_lt_two_pow h])]
  rw [Nat.shiftLeft_eq, pow_one]
  exact Nat.mod_eq_of_lt (by omega)

theorem crcStep_iter_mul (k : Nat) :
    ∀ c, c * 2 ^ k < 2 ^ 32 → crcStep^[k] c = c * 2 ^ k := by
  induction k with
  | zero => intro c _; simp
  | succ k ih =>
    intro c hc
    have h2 : c * 2 * 2 ^ k = c * 2 ^ (k + 1) := by ring
    have hc2 : c * 2 ≤ c * 2 ^ (k + 1) := by
      apply Nat.mul_le_mul_left
      exact Nat.le_self_pow (by omega) 2
    have hcsmall : c < 2 ^ 31 := by omega
    rw [Function.iterate_succ_apply, crcStep_of_lt hcsmall, ih (c * 2)
      (by omega), h2]

theorem decompose_hi_lo (c : Nat) : c % 2 ^ 24 ^^^ ((c >>> 24) <<< 24) = c := by
  apply Nat.eq_of_testBit_eq
  intro i
  simp only [Nat.testBit_xor, Nat.testBit_mod_two_pow, Nat.testBit_shiftLeft,
    Nat.testBit_shiftRight]
  by_cases h : i < 24
  · simp [h, show ¬ (i ≥ 24) by omega]
  · simp [h, show i ≥ 24 by omega, Nat.add_sub_cancel' (show 24 ≤ i by omega)]

theorem shiftLeft_eight_mod (c : Nat) :
    (c <<< 8) % 2 ^ 32 = (c % 2 ^ 24) <<< 8 := by
  apply Nat.eq_of_testBit_eq
  intro i
  simp only [Nat.testBit_mod_two_pow, Nat.testBit_shiftLeft]
  by_cases h8 : i ≥ 8 <;> by_cases h32 : i < 32 <;>
    simp [h8, h32, show (i - 8 < 24) = (i < 32) by simp; omega]

theorem crcFoldStep_eq_byteStep (crc b : Nat) (hc : crc < 2 ^ 32)
    (hb : b < 256) : crcFoldStep crc b = crcByteStep crc b := by
  have hb' : b % 256 = b := Nat.mod_eq_of_lt hb
  have hsh : b <<< 24 < 2 ^ 32 := by rw [Nat.shiftLeft_eq]; omega
  have hhi : crc >>> 24 < 256 := by rw [Nat.shiftRight_eq_div_pow]; omega
  have hxlt : (crc >>> 24) ^^^ b < 256 := by
    have h1 : crc >>> 24 < 2 ^ 8 := by omega
    have h2 : b < 2 ^ 8 := by omega
    have := Nat.xor_lt_two_pow h1 h2
    omega
  have hlo : crc % 2 ^ 24 < 2 ^ 24 := Nat.mod_lt _ (by norm_num)
  unfold crcByteStep crcFoldStep
  rw [hb', Nat.mod_eq_of_lt (Nat.xor_lt_two_pow hc hsh)]
  rw [Nat.mod_eq_of_lt hhi, Nat.mod_eq_of_lt hxlt]
  conv_rhs => rw [show crc ^^^ b <<< 24
    = (crc % 2 ^ 24) ^^^ (((crc >>> 24) ^^^ b) <<< 24) by
      rw [shiftLeft_xor_distrib, ← Nat.xor_assoc, decompose_hi_lo]]
  rw [crcStep_iter_xor]
  have hsmall : crcStep^[8] (crc % 2 ^ 24) = (crc % 2 ^ 24) * 2 ^ 8 :=
    crcStep_iter_mul 8 _ (by omega)
  rw [hsmall]
  show ((crc <<< 8) ^^^ crcTable ((crc >>> 24) ^^^ b)) % 2 ^ 32 = _
  unfold crcTable
  rw [xor_mod_two_pow,
    Nat.mod_eq_of_lt (crcStep_iter_lt 8 (((crc >>> 24) ^^^ b) <<< 24)
      (by omega)),
    shiftLeft_eight_mod, Nat.shiftLeft_eq]

theorem crcFold_eq_crcOfBytes (bytes : List Nat) (h : ∀ b ∈ bytes, b < 256) :
    crcFold bytes = crcOfBytes bytes := by
  unfold crcFold crcOfBytes
  suffices hgen : ∀ init, init < 2 ^ 32 →
      bytes.foldl crcFoldStep init = bytes.foldl crcByteStep init from
    hgen 0 (by norm_num)
  induction bytes with
  | nil => intro init _; rfl
  | cons b rest ih =>
    intro init hinit
    have hb : b < 256 := h b (List.mem_cons_self b rest)
    rw [List.foldl_cons, List.foldl_cons, crcFoldStep_eq_byteStep init b hinit hb]
    exact ih (fun x hx => h x (List.mem_cons_of_mem b hx)) _
      (crcStep_iter_lt 8 _ (by omega))

/-- `bitstreamEncoder` state: `firstPage` flag and the page sequence
counter. -/
structure BitstreamEncoder where
  firstPage : Bool
  sequenceNumber : Nat
deriving DecidableEq, Repr

/-- `newBitstreamEncoder`. -/
def newBitstreamEncoder : BitstreamEncoder :=
  { firstPage := true, sequenceNumber := 1 }

/-- `bitstreamEncoder.Encode`: build the single page for this packet,
emit its bytes, bump the sequence number and clear the first-page flag. -/
def BitstreamEncoder.encode (s : BitstreamEncoder) (packetData : List Nat)
    (granulePosition : Int) : Option (List Nat × BitstreamEncoder) :=
  match buildPacketPage s.firstPage s.sequenceNumber packetData
      granulePosition with
  | none => none
  | some page =>
    some (page.encode, { firstPage := false,
                         sequenceNumber := s.sequenceNumber + 1 })

/-- `opusIdentificationHeader` in `bot/ogg/opusidheader.go` (Go field
types: uint8, uint16, uint32, uint16, byte). -/
structure OpusIdentificationHeader where
  channelCount : Nat
  preSkip : Nat
  inputSampleRate : Nat
  outputGain : Nat
  mappingFamily : Nat
deriving DecidableEq, Repr

/-- `opusIdentificationHeader.Encode`/`Bytes`: magic, version 1, channel
count, pre-skip (uint16 LE), sample rate (uint32 LE), output gain
(uint16 LE), then a literal `uint8(0)` — the Go code writes the constant
0 for the mapping-family byte, not the struct field. -/
def OpusIdentificationHeader.bytes (h : OpusIdentificationHeader) :
    List Nat :=
  [0x4F, 0x70, 0x75, 0x73, 0x48, 0x65, 0x61, 0x64] ++ [1] ++
  [h.channelCount % 256] ++ toLE 2 h.preSkip ++ toLE 4 h.inputSampleRate ++
  toLE 2 h.outputGain ++ [0]

/-- The codec constants of `bot/ogg/encoder.go`. -/
def ChannelCount : Nat := 2

/-- `PreSkip` constant. -/
def PreSkip : Nat := 3840

/-- `SamplingRateHz` constant. -/
def SamplingRateHz : Nat := 48000

/-- `Gain` constant. -/
def Gain : Nat := 0

/-- `MappingFamily` constant. -/
def MappingFamily : Nat := 0

/-- `opusCommentHeader` in `bot/ogg/opuscommentheader.go`. -/
structure OpusCommentHeader where
  vendorString : List Nat
deriving DecidableEq, Repr

/-- `opusCommentHeader.Encode`/`Bytes`: magic, vendor string length
(uint32 LE), vendor bytes, user-comment-list length 0 (uint32 LE). -/
def OpusCommentHeader.bytes (h : OpusCommentHeader) : List Nat :=
  [0x4F, 0x70, 0x75, 0x73, 0x54, 0x61, 0x67, 0x73] ++
  toLE 4 h.vendorString.length ++ h.vendorString ++ toLE 4 0

/-- The ASCII bytes of the vendor string `"discord-replay"`. -/
def vendorDiscordReplay : List Nat :=
  [100, 105, 115, 99, 111, 114, 100, 45, 114, 101, 112, 108, 97, 121]

/-- The identification-header payload `NewEncoder` writes (all fields
from the package constants). -/
def idHeaderBytes : List Nat :=
  OpusIdentificationHeader.bytes
    { channelCount := ChannelCount, preSkip := PreSkip,
      inputSampleRate := SamplingRateHz, outputGain := Gain,
      mappingFamily := MappingFamily }

/-- The comment-header payload `NewEncoder` writes. -/
def commentHeaderBytes : List Nat :=
  OpusCommentHeader.bytes { vendorString := vendorDiscordReplay }

/-- Run `bitstreamEncoder.Encode` once per (payload, granule) pair,
concatenating the emitted page bytes; `none` on any precondition
violation. -/
def encodeAll (s : BitstreamEncoder) :
    List (List Nat × Int) → Option (List Nat)
  | [] => some []
  | (d, g) :: rest =>
    match s.encode d g with
    | none => none
    | some (bs, s') =>
      match encodeAll s' rest with
      | none => none
      | some restBytes => some (bs ++ restBytes)

/-- The byte stream produced by `NewEncoder` followed by one
`Encoder.Encode(payload, granule)` call per element of `inputs`: the
identification page and comment page (both at granule 0), then one page
per payload. -/
def encoderOutput (inputs : List (List Nat × Int)) : Option (List Nat) :=
  encodeAll newBitstreamEncoder
    ((idHeaderBytes, 0) :: (commentHeaderBytes, 0) :: inputs)

/-- Consume exactly `n` bytes (spec-side parser building block). -/
def readN (n : Nat) (bs : List Nat) : Option (List Nat × List Nat) :=
  if n ≤ bs.length then some (bs.take n, bs.drop n) else none

/-- Little-endian byte-sequence decoding (spec-side). -/
def fromLE (bs : List Nat) : Nat :=
  bs.foldr (fun b acc => b % 256 + 256 * acc) 0

/-- Two's-complement decoding of a raw 64-bit value into an `Int`
(spec-side, for the granule position field). -/
def decodeInt64 (n : Nat) : Int :=
  if n < 2 ^ 63 then (n : Int) else (n : Int) - 2 ^ 64

/-- What a conforming parser recovers from one page (spec-side). -/
structure ParsedPage where
  headerType : Nat
  granule : Int
  serial : Nat
  seq : Nat
  crcValid : Bool
  packets : List (List Nat)
deriving DecidableEq, Repr

/-- Packet reconstruction from the lacing values: segments accumulate
into the current packet; a lacing value below 255 ends the packet
(spec-side; a trailing unterminated packet continues on the next page
and is not returned). -/
def splitPackets : List Nat → List Nat → List Nat → List (List Nat)
  | [], _, _ => []
  | n :: rest, body, acc =>
    if n < 255 then (acc ++ body.take n) :: splitPackets rest (body.drop n) []
    else splitPackets rest (body.drop n) (acc ++ body.take n)

/-- Modelled from the spec: a conforming Ogg page parser.  Checks the
capture pattern and version, reads header type, granule position
(int64 LE), serial number, sequence number, stored checksum,
segment-count byte, lacing table and segment bytes, revalidates the
CRC-32 over the page with the checksum field zeroed, and reconstructs
the packets from the lacing values. -/
def parsePage (bs : List Nat) : Option (ParsedPage × List Nat) :=
  match readN 4 bs with
  | none => none
  | some (magic, bs1) =>
    if magic ≠ [0x4F, 0x67, 0x67, 0x53] then none else
    match readN 1 bs1 with
    | none => none
    | some (ver, bs2) =>
      if ver ≠ [0] then none else
      match readN 1 bs2 with
      | none => none
      | some (ht, bs3) =>
        match readN 8 bs3 with
        | none => none
        | some (gb, bs4) =>
          match readN 4 bs4 with
          | none => none
          | some (ser, bs5) =>
            match readN 4 bs5 with
            | none => none
            | some (sq, bs6) =>
              match readN 4 bs6 with
              | none => none
              | some (cr, bs7) =>
                match readN 1 bs7 with
                | none => none
                | some (nsegb, bs8) =>
                  match readN (fromLE nsegb) bs8 with
                  | none => none
                  | some (table, bs9) =>
                    match readN table.sum bs9 with
                    | none => none
                    | some (body, rest) =>
                      some ({ headerType := fromLE ht,
                              granule := decodeInt64 (fromLE gb),
                              serial := fromLE ser,
                              seq := fromLE sq,
                              crcValid := fromLE cr == crcOfBytes
                                ([0x4F, 0x67, 0x67, 0x53] ++ [0] ++ ht ++ gb
                                  ++ ser ++ sq ++ toLE 4 0 ++ nsegb ++ table
                                  ++ body),
                              packets := splitPackets table body [] }, rest)

/-- Parse a stream of pages back-to-back (spec-side); `fuel` bounds the
number of pages, `bs.length` always suffices. -/
def parsePagesFuel : Nat → List Nat → Option (List ParsedPage)
  | _, [] => some []
  | 0, _ :: _ => none
  | fuel + 1, b :: bs =>
    match parsePage (b :: bs) with
    | none => none
    | some (p, rest) =>
      match parsePagesFuel fuel rest with
      | none => none
      | some ps => some (p :: ps)

/-- Parse a whole byte stream as consecutive pages (spec-side). -/
def parsePages (bs : List Nat) : Option (List ParsedPage) :=
  parsePagesFuel bs.length bs

/-- Modelled from the spec: parsing the `OpusHead` identification header
payload, returning (channel count, pre-skip, input sample rate, output
gain, mapping family). -/
def parseOpusHead (bs : List Nat) : Option (Nat × Nat × Nat × Nat × Nat) :=
  match readN 8 bs with
  | none => none
  | some (magic, bs1) =>
    if magic ≠ [0x4F, 0x70, 0x75, 0x73, 0x48, 0x65, 0x61, 0x64] then none else
    match readN 1 bs1 with
    | none => none
    | some (ver, bs2) =>
      if ver ≠ [1] then none else
      match readN 1 bs2 with
      | none => none
      | some (ch, bs3) =>
        match readN 2 bs3 with
        | none => none
        | some (pre, bs4) =>
          match readN 4 bs4 with
          | none => none
          | some (sr, bs5) =>
            match readN 2 bs5 with
            | none => none
            | some (og, bs6) =>
              match readN 1 bs6 with
              | none => none
              | some (mf, _) =>
                some (fromLE ch, fromLE pre, fromLE sr, fromLE og, fromLE mf)

/-- Modelled from the spec: parsing the `OpusTags` comment header
payload, returning (vendor string bytes, user comment count). -/
def parseOpusTags (bs : List Nat) : Option (List Nat × Nat) :=
  match readN 8 bs with
  | none => none
  | some (magic, bs1) =>
    if magic ≠ [0x4F, 0x70, 0x75, 0x73, 0x54, 0x61, 0x67, 0x73] then none else
    match readN 4 bs1 with
    | none => none
    | some (vlen, bs2) =>
      match readN (fromLE vlen) bs2 with
      | none => none
      | some (vendor, bs3) =>
        match readN 4 bs3 with
        | none => none
        | some (ccount, _) => some (vendor, fromLE ccount)

theorem readN_exact {n : Nat} {xs : List Nat} (h : xs.length = n)
    (rest : List Nat) : readN n (xs ++ rest) = some (xs, rest) := by
  subst h
  unfold readN
  rw [if_pos (by simp)]
  rw [List.take_left, List.drop_left]

theorem toLE_length (n v : Nat) : (toLE n v).length = n := by
  induction n generalizing v with
  | zero => rfl
  | succ n ih => simp [toLE, ih]

theorem toLE_lt (n v : Nat) : ∀ b ∈ toLE n v, b < 256 := by
  induction n generalizing v with
  | zero => intro b hb; simp [toLE] at hb
  | succ n ih =>
    intro b hb
    simp only [toLE, List.mem_cons] at hb
    rcases hb with rfl | hb
    · exact Nat.mod_lt _ (by norm_num)
    · exact ih _ b hb

theorem fromLE_toLE (n v : Nat) : fromLE (toLE n v) = v % 2 ^ (8 * n) := by
  induction n generalizing v with
  | zero => simp [toLE, fromLE, Nat.mod_one]
  | succ n ih =>
    show (v % 256) % 256 + 256 * fromLE (toLE n (v / 256)) = _
    rw [Nat.mod_mod_of_dvd _ (by norm_num), ih]
    have h2 : 2 ^ (8 * (n + 1)) = 256 * 2 ^ (8 * n) := by
      rw [show 8 * (n + 1) = 8 + 8 * n by ring, pow_add]
      norm_num
    rw [h2, Nat.mod_mul]

theorem fromLE_toLE_of_lt {n v : Nat} (h : v < 2 ^ (8 * n)) :
    fromLE (toLE n v) = v := by
  rw [fromLE_toLE, Nat.mod_eq_of_lt h]

theorem fromLE_lt (n v : Nat) : fromLE (toLE n v) < 2 ^ (8 * n) := by
  rw [fromLE_toLE]
  exact Nat.mod_lt _ (Nat.pos_pow_of_pos _ (by norm_num))

theorem granuleBytes_roundtrip {g : Int} (h1 : -(2 : Int) ^ 63 ≤ g)
    (h2 : g < 2 ^ 63) : decodeInt64 (fromLE (granuleBytes g)) = g := by
  unfold granuleBytes decodeInt64
  have hmod : (0 : Int) ≤ g % 2 ^ 64 ∧ g % 2 ^ 64 < 2 ^ 64 := by
    constructor
    · exact Int.emod_nonneg g (by norm_num)
    · exact Int.emod_lt_of_pos g (by norm_num)
  have htn : ((g % 2 ^ 64).toNat : Int) = g % 2 ^ 64 := Int.toNat_of_nonneg hmod.1
  have hlt : (g % 2 ^ 64).toNat < 2 ^ 64 := by omega
  have hfl : fromLE (toLE 8 (g % 2 ^ 64).toNat) = (g % 2 ^ 64).toNat :=
    fromLE_toLE_of_lt (by omega)
  rw [hfl]
  have hcase : g % 2 ^ 64 = if 0 ≤ g then g else g + 2 ^ 64 := by
    split <;> omega
  split <;> rename_i hbr
  · rw [htn]
    split at hcase <;> omega
  · rw [htn]
    split at hcase <;> omega

theorem headerTypeByte_lt (h : PageHeader) : headerTypeByte h < 256 := by
  unfold headerTypeByte
  rcases h.continued <;> rcases h.firstPage <;> rcases h.lastPage <;> decide

theorem crcFold_lt (bytes : List Nat) : crcFold bytes < 2 ^ 32 := by
  unfold crcFold
  suffices hgen : ∀ init, init < 2 ^ 32 → bytes.foldl crcFoldStep init < 2 ^ 32
    from hgen 0 (by norm_num)
  induction bytes with
  | nil => intro init hinit; exact hinit
  | cons b rest ih =>
    intro init hinit
    rw [List.foldl_cons]
    exact ih _ (Nat.mod_lt _ (by norm_num))

theorem encodeWithCRC_length (p : Page) (crc : Nat) :
    (p.encodeWithCRC crc).length
      = 27 + p.header.segmentTable.length + p.segments.length := by
  simp [Page.encodeWithCRC, PageHeader.encodeWithCRC, toLE_length,
    granuleBytes, List.length_append]
  omega

theorem encodeWithCRC_bytes_lt (p : Page) (c : Nat) (hc : c < 2 ^ 32)
    (hentries : ∀ n ∈ p.header.segmentTable, n ≤ 255)
    (hsegb : ∀ b ∈ p.segments, b < 256) :
    ∀ b ∈ p.encodeWithCRC c, b < 256 := by
  intro b hb
  simp only [Page.encodeWithCRC, PageHeader.encodeWithCRC, List.append_assoc,
    List.mem_append, List.mem_cons, List.mem_singleton,
    List.not_mem_nil, or_false] at hb
  rcases hb with h | h | h | h | h | h | h | h | h
  · omega
  · omega
  · exact h ▸ headerTypeByte_lt p.header
  · exact toLE_lt 8 _ b h
  · exact toLE_lt 4 _ b h
  · exact toLE_lt 4 _ b h
  · exact toLE_lt 4 _ b h
  · exact h ▸ Nat.mod_lt _ (by norm_num)
  · rcases h with h | h
    · have := hentries b h; omega
    · exact hsegb b h

theorem parsePage_encode (p : Page) (rest : List Nat)
    (htab : p.header.segmentTable.length ≤ 255)
    (hentries : ∀ n ∈ p.header.segmentTable, n ≤ 255)
    (hsum : p.header.segmentTable.sum = p.segments.length)
    (hser : p.header.bitstreamSerialNumber < 2 ^ 32)
    (hseq : p.header.pageSequenceNumber < 2 ^ 32)
    (hg1 : -(2 : Int) ^ 63 ≤ p.header.granulePosition)
    (hg2 : p.header.granulePosition < 2 ^ 63)
    (hsegb : ∀ b ∈ p.segments, b < 256) :
    parsePage (p.encode ++ rest) = some
      ({ headerType := headerTypeByte p.header,
         granule := p.header.granulePosition,
         serial := p.header.bitstreamSerialNumber,
         seq := p.header.pageSequenceNumber,
         crcValid := true,
         packets := splitPackets p.header.segmentTable p.segments [] },
        rest) := by
  have hshape : p.encode ++ rest
      = [0x4F, 0x67, 0x67, 0x53] ++ ([0] ++ ([headerTypeByte p.header] ++
        (granuleBytes p.header.granulePosition ++
        (toLE 4 p.header.bitstreamSerialNumber ++
        (toLE 4 p.header.pageSequenceNumber ++
        (toLE 4 (crcFold (p.encodeWithCRC 0)) ++
        ([p.header.segmentTable.length % 256] ++
        (p.header.segmentTable ++ (p.segments ++ rest))))))))) := by
    simp [Page.encode, Page.encodeWithCRC, PageHeader.encodeWithCRC,
      List.append_assoc]
  have e1 : ([0x4F, 0x67, 0x67, 0x53] : List Nat).length = 4 := rfl
  have e2 : ([(0 : Nat)]).length = 1 := rfl
  have e3 : ([headerTypeByte p.header]).length = 1 := rfl
  have e4 : (granuleBytes p.header.granulePosition).length = 8 := by
    simp [granuleBytes, toLE_length]
  have e5 : (toLE 4 p.header.bitstreamSerialNumber).length = 4 :=
    toLE_length 4 _
  have e6 : (toLE 4 p.header.pageSequenceNumber).length = 4 := toLE_length 4 _
  have e7 : (toLE 4 (crcFold (p.encodeWithCRC 0))).length = 4 :=
    toLE_length 4 _
  have e8 : ([p.header.segmentTable.length % 256]).length = 1 := rfl
  have hnseg : fromLE [p.header.segmentTable.length % 256]
      = p.header.segmentTable.length := by
    show p.header.segmentTable.length % 256 % 256 + 256 * 0 = _
    omega
  have e9 : p.header.segmentTable.length
      = fromLE [p.header.segmentTable.length % 256] := hnseg.symm
  have e10 : p.segments.length = p.header.segmentTable.sum := hsum.symm
  unfold parsePage
  rw [hshape, readN_exact e1]
  dsimp only
  rw [if_neg (by decide)]
  rw [readN_exact e2]
  dsimp only
  rw [if_neg (by decide)]
  rw [readN_exact e3]
  dsimp only
  rw [readN_exact e4]
  dsimp only
  rw [readN_exact e5]
  dsimp only
  rw [readN_exact e6]
  dsimp only
  rw [readN_exact e7]
  dsimp only
  rw [readN_exact e8]
  dsimp only
  rw [readN_exact e9]
  dsimp only
  rw [readN_exact e10]
  dsimp only
  have hcrc : fromLE (toLE 4 (crcFold (p.encodeWithCRC 0)))
      = crcFold (p.encodeWithCRC 0) :=
    fromLE_toLE_of_lt (by have := crcFold_lt (p.encodeWithCRC 0); omega)
  have hrecon : [(0x4F : Nat), 0x67, 0x67, 0x53] ++ [0] ++
        [headerTypeByte p.header] ++ granuleBytes p.header.granulePosition ++
        toLE 4 p.header.bitstreamSerialNumber ++
        toLE 4 p.header.pageSequenceNumber ++ toLE 4 0 ++
        [p.header.segmentTable.length % 256] ++ p.header.segmentTable ++
        p.segments
      = p.encodeWithCRC 0 := by
    simp [Page.encodeWithCRC, PageHeader.encodeWithCRC, List.append_assoc]
  have hcrcOf : crcOfBytes (p.encodeWithCRC 0) = crcFold (p.encodeWithCRC 0) :=
    (crcFold_eq_crcOfBytes _ (encodeWithCRC_bytes_lt p 0 (by norm_num)
      hentries hsegb)).symm
  have hht : fromLE [headerTypeByte p.header] = headerTypeByte p.header := by
    show headerTypeByte p.header % 256 + 256 * 0 = _
    have := headerTypeByte_lt p.header
    omega
  rw [hrecon, hcrc, hcrcOf, hht,
    fromLE_toLE_of_lt (show p.header.bitstreamSerialNumber < 2 ^ (8 * 4) by
      omega),
    fromLE_toLE_of_lt (show p.header.pageSequenceNumber < 2 ^ (8 * 4) by
      omega),
    granuleBytes_roundtrip hg1 hg2]
  simp

theorem splitPackets_one_packet (q r : Nat) (hr : r < 255) :
    ∀ (body acc : List Nat), body.length = 255 * q + r →
      splitPackets (List.replicate q 255 ++ [r]) body acc = [acc ++ body] := by
  induction q with
  | zero =>
    intro body acc hlen
    show splitPackets [r] body acc = _
    unfold splitPackets
    rw [if_pos hr]
    rw [List.take_of_length_le (by omega)]
    rfl
  | succ q ih =>
    intro body acc hlen
    rw [List.replicate_succ, List.cons_append]
    unfold splitPackets
    rw [if_neg (by omega)]
    rw [ih (body.drop 255) (acc ++ body.take 255)
      (by rw [List.length_drop]; omega)]
    rw [List.append_assoc, List.take_append_drop]

theorem parsePagesFuel_nil (f : Nat) : parsePagesFuel f [] = some [] := by
  cases f <;> rfl

theorem parsePagesFuel_cons (f : Nat) (page rest : List Nat)
    (pp : ParsedPage) (ps : List ParsedPage)
    (hpage : parsePage (page ++ rest) = some (pp, rest))
    (hne : page ≠ [])
    (hrest : parsePagesFuel f rest = some ps) :
    parsePagesFuel (f + 1) (page ++ rest) = some (pp :: ps) := by
  obtain ⟨x, xs, rfl⟩ : ∃ x xs, page = x :: xs := by
    cases page with
    | nil => exact absurd rfl hne
    | cons x xs => exact ⟨x, xs, rfl⟩
  show parsePagesFuel (f + 1) (x :: (xs ++ rest)) = _
  unfold parsePagesFuel
  rw [show x :: (xs ++ rest) = (x :: xs) ++ rest from rfl, hpage]
  dsimp only
  rw [hrest]

/-- What a conforming parser is expected to recover from one
single-packet page of this encoder. -/
def expectedPage (ht : Nat) (g : Int) (seq : Nat) (pk : List Nat) :
    ParsedPage :=
  { headerType := ht, granule := g, serial := 1, seq := seq,
    crcValid := true, packets := [pk] }

/-- The expected parse of the pages an encoder in state
(`first`, `seq`) emits for the given inputs. -/
def expectedPagesFrom (first : Bool) (seq : Nat) :
    List (List Nat × Int) → List ParsedPage
  | [] => []
  | (d, g) :: r =>
    expectedPage (if first then 2 else 0) g seq d
      :: expectedPagesFrom false (seq + 1) r

theorem encodePacket_parse (first : Bool) (seq : Nat) (d : List Nat)
    (g : Int) (hseq : seq < 2 ^ 32) (hd : d.length ≤ 65024)
    (hdb : ∀ b ∈ d, b < 256) (hg1 : -(2 : Int) ^ 63 ≤ g) (hg2 : g < 2 ^ 63)
    (rest : List Nat) :
    ∃ pageBytes, BitstreamEncoder.encode ⟨first, seq⟩ d g
        = some (pageBytes, ⟨false, seq + 1⟩) ∧
      pageBytes ≠ [] ∧
      parsePage (pageBytes ++ rest)
        = some (expectedPage (if first then 2 else 0) g seq d, rest) := by
  have hdm := Nat.div_add_mod d.length 255
  refine ⟨(Page.mk
    { continued := false, firstPage := first, lastPage := false,
      granulePosition := g, bitstreamSerialNumber := 1,
      pageSequenceNumber := seq,
      segmentTable := List.replicate (d.length / 255) 255
        ++ [d.length % 255] }
    d).encode, ?_, ?_, ?_⟩
  · unfold BitstreamEncoder.encode
    dsimp only
    rw [buildPacketPage_eq first seq g d hd]
  · apply List.ne_nil_of_length_pos
    unfold Page.encode
    rw [encodeWithCRC_length]
    omega
  · have hht : headerTypeByte
        { continued := false, firstPage := first, lastPage := false,
          granulePosition := g, bitstreamSerialNumber := 1,
          pageSequenceNumber := seq,
          segmentTable := List.replicate (d.length / 255) 255
            ++ [d.length % 255] } = if first then 2 else 0 := by
      cases first <;> simp [headerTypeByte]
    have hparse := parsePage_encode (Page.mk
      { continued := false, firstPage := first, lastPage := false,
        granulePosition := g, bitstreamSerialNumber := 1,
        pageSequenceNumber := seq,
        segmentTable := List.replicate (d.length / 255) 255
          ++ [d.length % 255] } d) rest
      (by simp only [List.length_append, List.length_replicate,
            List.length_singleton]; omega)
      (by
        intro n hn
        rcases List.mem_append.mp hn with h | h
        · rw [List.eq_of_mem_replicate h]
        · rw [List.mem_singleton.mp h]; omega)
      (by
        show (List.replicate (d.length / 255) 255 ++ [d.length % 255]).sum
          = d.length
        rw [List.sum_append, List.sum_replicate, smul_eq_mul]
        simp only [List.sum_cons, List.sum_nil]
        omega)
      (by norm_num) hseq hg1 hg2 hdb
    dsimp only at hparse
    have hsplit2 : splitPackets (List.replicate (d.length / 255) 255
        ++ [d.length % 255]) d [] = [d] := by
      rw [splitPackets_one_packet (d.length / 255) (d.length % 255)
        (Nat.mod_lt _ (by norm_num)) d [] (by omega)]
      rfl
    rw [hsplit2, hht] at hparse
    exact hparse

theorem encodeAll_parse (inputs : List (List Nat × Int)) :
    ∀ (seq : Nat) (first : Bool),
      (∀ pr ∈ inputs, pr.1.length ≤ 65024 ∧ (∀ b ∈ pr.1, b < 256) ∧
        -(2 : Int) ^ 63 ≤ pr.2 ∧ pr.2 < 2 ^ 63) →
      seq + inputs.length ≤ 2 ^ 32 →
      ∃ bs, encodeAll ⟨first, seq⟩ inputs = some bs ∧
        ∀ f, bs.length ≤ f →
          parsePagesFuel f bs = some (expectedPagesFrom first seq inputs) := by
  induction inputs with
  | nil =>
    intro seq first _ _
    exact ⟨[], rfl, fun f _ => parsePagesFuel_nil f⟩
  | cons pr rest ih =>
    obtain ⟨d, g⟩ := pr
    intro seq first hwf hseq
    simp only [List.length_cons] at hseq
    obtain ⟨bsRest, hEnc, hParse⟩ := ih (seq + 1) false
      (fun q hq => hwf q (List.mem_cons_of_mem _ hq)) (by omega)
    obtain ⟨hd, hdb, hg1, hg2⟩ := hwf (d, g) (List.mem_cons_self _ _)
    obtain ⟨pageBytes, hE1, hne, hP1⟩ := encodePacket_parse first seq d g
      (by omega) hd hdb hg1 hg2 bsRest
    refine ⟨pageBytes ++ bsRest, ?_, ?_⟩
    · show (match BitstreamEncoder.encode ⟨first, seq⟩ d g with
        | none => none
        | some (bs, s') =>
          match encodeAll s' rest with
          | none => none
          | some restBytes => some (bs ++ restBytes)) = _
      rw [hE1]
      dsimp only
      rw [hEnc]
    · intro f hf
      have hlen : 1 ≤ pageBytes.length := by
        cases pageBytes with
        | nil => exact absurd rfl hne
        | cons a l => simp
      rw [List.length_append] at hf
      obtain ⟨fp, rfl⟩ : ∃ fp, f = fp + 1 := ⟨f - 1, by omega⟩
      exact parsePagesFuel_cons fp pageBytes bsRest _ _ hP1 hne
        (hParse fp (by omega))

end Ogg

namespace Replayfile

open Circular (AudioPacket)

/-- `SampleRate` constant of `bot/replayfile` (48 kHz). -/
def SampleRate : Int := 48000

/-- `FrameSize = FrameLengthNs * SampleRate / 1e9` (exact Go constant
arithmetic): 20 ms at 48 kHz = 960 samples. -/
def FrameSize : Int := 960

/-- The fixed `silentFrame` payload. -/
def silentFrame : List Nat := [0xF8, 0xFF, 0xFE]

/-- `streamState`: `lastPCMIndex` plus the per-speaker file content,
abstracted as the ordered `(payload, granulePosition)` pairs passed to
`encoder.Encode`. -/
structure StreamState where
  lastPCMIndex : Int
  frames : List (List Nat × Int)
deriving DecidableEq, Repr

/-- Lookup in the `streams` map (association list in first-seen order,
mirroring `streams map[uint32]*streamState` plus the `files` slice). -/
def lookupStream : List (Nat × StreamState) → Nat → Option StreamState
  | [], _ => none
  | (s, st) :: rest, ssrc =>
    if s = ssrc then some st else lookupStream rest ssrc

/-- Point update of the `streams` map. -/
def updateStream (f : StreamState → StreamState) :
    List (Nat × StreamState) → Nat → List (Nat × StreamState)
  | [], _ => []
  | (s, st) :: rest, ssrc =>
    if s = ssrc then (s, f st) :: rest
    else (s, st) :: updateStream f rest ssrc

/-- `leadInSamples`:
`timeRelativeStartStream.Nanoseconds() * SampleRate / 1e9` with Go's
truncating `int64` division. -/
def leadInSamples (startTime t : Int) : Int :=
  Int.tdiv ((t - startTime) * SampleRate) 1000000000

/-- The silent padding frames the gap loop emits:
`packetsToPad = pcmSamplesToPad / FrameSize` (truncating division, so a
non-positive quotient yields no iterations), the `i`-th frame at granule
`lastPCMIndex + (i+1)*FrameSize`. -/
def padFrames (lastPCM : Int) (n : Int) : List (List Nat × Int) :=
  (List.range n.toNat).map
    (fun (i : Nat) => (silentFrame, lastPCM + (((i : Int)) + 1) * FrameSize))

/-- The per-packet emission (steps 3–4 of the synchronizer): compute the
gap to the end of the previously emitted frame, emit the truncated
number of silent frames, then the real payload at its own
`sampleIndex`, and update `lastPCMIndex`. -/
def emitPacket (st : StreamState) (pcm : Int) (opus : List Nat) :
    StreamState :=
  let gap := pcm - (st.lastPCMIndex + FrameSize)
  { lastPCMIndex := pcm,
    frames := st.frames ++ padFrames st.lastPCMIndex (Int.tdiv gap FrameSize)
      ++ [(opus, pcm)] }

/-- The loop state of `createStreamFiles`: the optional
`streamStartTime` and the per-speaker streams in first-seen order. -/
structure SyncState where
  startTime : Option Int
  streams : List (Nat × StreamState)
deriving DecidableEq, Repr

/-- The age filter of `createStreamFiles`: a packet is processed iff
`now − pkt.Time < recordingDuration`. -/
def eligible (now recordingDuration : Int) (pkt : AudioPacket) : Bool :=
  decide (now - pkt.time < recordingDuration)

/-- One body iteration of `createStreamFiles` for an eligible packet
once the start time is fixed: create the stream lazily with
`lastPCMIndex = pcmIndex − leadInSamples`, then run the common emit
path. -/
def stepE (startTime : Int) (streams : List (Nat × StreamState))
    (pkt : AudioPacket) : List (Nat × StreamState) :=
  let streams' :=
    match lookupStream streams pkt.ssrc with
    | some _ => streams
    | none =>
      streams ++ [(pkt.ssrc,
        { lastPCMIndex := (pkt.pcmIndex : Int)
            - leadInSamples startTime pkt.time,
          frames := [] })]
  updateStream (fun s => emitPacket s (pkt.pcmIndex : Int) pkt.opus)
    streams' pkt.ssrc

/-- One loop iteration of `createStreamFiles`: discard packets that are
too old, fix `streamStartTime` at the first eligible packet, then run
the per-packet body. -/
def stepPkt (now recordingDuration : Int) (st : SyncState)
    (pkt : AudioPacket) : SyncState :=
  if now - pkt.time ≥ recordingDuration then st
  else
    let startTime := st.startTime.getD pkt.time
    { startTime := some startTime,
      streams := stepE startTime st.streams pkt }

/-- `Creator.createStreamFiles`, abstracted to the per-speaker frame
sequences (one entry per created temporary file, in creation order). -/
def createStreamFiles (now recordingDuration : Int)
    (pkts : List AudioPacket) : List (Nat × StreamState) :=
  (pkts.foldl (stepPkt now recordingDuration)
    { startTime := none, streams := [] }).streams

/-- The outcome of `Creator.create`: the distinguished `NoAudioDataErr`,
or the per-speaker files handed to the mixer. -/
inductive CreateResult where
  | noAudioData
  | files (streams : List (Nat × StreamState))
deriving DecidableEq, Repr

/-- `Creator.create` (mixing and I/O abstracted away): `NoAudioDataErr`
exactly when `createStreamFiles` created no file. -/
def create (now recordingDuration : Int) (pkts : List AudioPacket) :
    CreateResult :=
  let streams := createStreamFiles now recordingDuration pkts
  if streams = [] then CreateResult.noAudioData else CreateResult.files streams

/-- First-seen deduplication of a list (the order in which new speakers
are observed). -/
def firstSeen (l : List Nat) : List Nat :=
  l.foldl (fun acc s => if s ∈ acc then acc else acc ++ [s]) []

theorem updateStream_keys (f : StreamState → StreamState) :
    ∀ (l : List (Nat × StreamState)) (s : Nat),
      (updateStream f l s).map Prod.fst = l.map Prod.fst := by
  intro l
  induction l with
  | nil => intro s; rfl
  | cons pr rest ih =>
    intro s
    obtain ⟨k, v⟩ := pr
    unfold updateStream
    split
    · rfl
    · simp only [List.map_cons, ih]

theorem lookupStream_none_iff :
    ∀ (l : List (Nat × StreamState)) (s : Nat),
      lookupStream l s = none ↔ s ∉ l.map Prod.fst := by
  intro l
  induction l with
  | nil => intro s; simp [lookupStream]
  | cons pr rest ih =>
    intro s
    obtain ⟨k, v⟩ := pr
    unfold lookupStream
    by_cases hk : k = s
    · subst hk
      simp
    · rw [if_neg hk, ih]
      simp [Ne.symm hk]

theorem stepE_keys (t0 : Int) (strs : List (Nat × StreamState))
    (pkt : AudioPacket) :
    (stepE t0 strs pkt).map Prod.fst
      = if pkt.ssrc ∈ strs.map Prod.fst then strs.map Prod.fst
        else strs.map Prod.fst ++ [pkt.ssrc] := by
  unfold stepE
  cases hl : lookupStream strs pkt.ssrc with
  | none =>
    have hmem := (lookupStream_none_iff strs pkt.ssrc).mp hl
    rw [if_neg hmem]
    dsimp only
    rw [updateStream_keys]
    simp
  | some v =>
    have hmem : pkt.ssrc ∈ strs.map Prod.fst := by
      by_contra hc
      rw [← lookupStream_none_iff] at hc
      rw [hl] at hc
      exact Option.noConfusion hc
    rw [if_pos hmem]
    dsimp only
    rw [updateStream_keys]

theorem foldl_stepPkt_keys (now dur : Int) :
    ∀ (pkts : List AudioPacket) (st : SyncState),
      ((pkts.foldl (stepPkt now dur) st).streams).map Prod.fst
        = (pkts.filter (eligible now dur)).foldl
            (fun acc p => if p.ssrc ∈ acc then acc else acc ++ [p.ssrc])
            (st.streams.map Prod.fst) := by
  intro pkts
  induction pkts with
  | nil => intro st; rfl
  | cons p rest ih =>
    intro st
    rw [List.foldl_cons]
    by_cases he : eligible now dur p = true
    · have hfilter : (p :: rest).filter (eligible now dur)
          = p :: rest.filter (eligible now dur) := by
        rw [List.filter_cons_of_pos he]
      rw [hfilter, List.foldl_cons]
      have hstep : stepPkt now dur st p
          = { startTime := some (st.startTime.getD p.time),
              streams := stepE (st.startTime.getD p.time) st.streams p } := by
        unfold stepPkt
        rw [if_neg (by simp [eligible] at he; omega)]
      rw [hstep, ih]
      congr 1
      exact stepE_keys _ _ _
    · have hfilter : (p :: rest).filter (eligible now dur)
          = rest.filter (eligible now dur) := by
        rw [List.filter_cons_of_neg (by simpa using he)]
      have hstep : stepPkt now dur st p = st := by
        unfold stepPkt
        rw [if_pos (by simp [eligible] at he; omega)]
      rw [hfilter, hstep, ih]

theorem createStreamFiles_keys (now dur : Int) (pkts : List AudioPacket) :
    (createStreamFiles now dur pkts).map Prod.fst
      = firstSeen ((pkts.filter (eligible now dur)).map (fun p => p.ssrc)) := by
  unfold createStreamFiles firstSeen
  rw [foldl_stepPkt_keys, List.foldl_map]
  rfl

theorem seen_foldl_mem (x : Nat) :
    ∀ (l acc : List Nat),
      x ∈ l.foldl (fun acc s => if s ∈ acc then acc else acc ++ [s]) acc
        ↔ x ∈ acc ∨ x ∈ l := by
  intro l
  induction l with
  | nil => intro acc; simp
  | cons s rest ih =>
    intro acc
    rw [List.foldl_cons, ih]
    by_cases hs : s ∈ acc
    · rw [if_pos hs]
      constructor
      · rintro (h | h)
        · exact Or.inl h
        · exact Or.inr (List.mem_cons_of_mem s h)
      · rintro (h | h)
        · exact Or.inl h
        · rcases List.mem_cons.mp h with rfl | h
          · exact Or.inl hs
          · exact Or.inr h
    · rw [if_neg hs]
      simp only [List.mem_append, List.mem_singleton, List.mem_cons]
      tauto

theorem seen_foldl_len :
    ∀ (l acc : List Nat),
      acc.length ≤
        (l.foldl (fun acc s => if s ∈ acc then acc else acc ++ [s])
          acc).length := by
  intro l
  induction l with
  | nil => intro acc; exact le_refl _
  | cons s rest ih =>
    intro acc
    rw [List.foldl_cons]
    refine le_trans ?_ (ih _)
    split
    · exact le_refl _
    · simp

theorem firstSeen_eq_nil_iff (l : List Nat) : firstSeen l = [] ↔ l = [] := by
  constructor
  · intro h
    cases l with
    | nil => rfl
    | cons s rest =>
      exfalso
      have := seen_foldl_len rest [s]
      unfold firstSeen at h
      rw [List.foldl_cons] at h
      simp only [List.not_mem_nil, if_false, List.nil_append] at h
      rw [h] at this
      simp at this
  · rintro rfl; rfl

theorem lookupStream_update_self (f : StreamState → StreamState) :
    ∀ (l : List (Nat × StreamState)) (s : Nat) (v : StreamState),
      lookupStream l s = some v →
      lookupStream (updateStream f l s) s = some (f v) := by
  intro l
  induction l with
  | nil => intro s v h; exact Option.noConfusion h
  | cons pr rest ih =>
    intro s v h
    obtain ⟨k, w⟩ := pr
    unfold lookupStream at h
    unfold updateStream
    by_cases hk : k = s
    · rw [if_pos hk] at h
      rw [if_pos hk]
      unfold lookupStream
      rw [if_pos hk]
      rw [Option.some.injEq] at h
      rw [h]
    · rw [if_neg hk] at h
      rw [if_neg hk]
      unfold lookupStream
      rw [if_neg hk]
      exact ih s v h

theorem padFrames_length (lastPCM n : Int) :
    (padFrames lastPCM n).length = n.toNat := by
  unfold padFrames
  rw [List.length_map, List.length_range]

theorem tdiv_nonpos_of_lt_frame {gap : Int} (h : gap < FrameSize) :
    Int.tdiv gap FrameSize ≤ 0 := by
  rcases le_or_lt gap 0 with hle | hpos
  · have h1 : Int.tdiv gap FrameSize = -(Int.tdiv (-gap) FrameSize) := by
      rw [← Int.neg_tdiv, neg_neg]
    rw [h1]
    have h2 : 0 ≤ Int.tdiv (-gap) FrameSize :=
      Int.tdiv_nonneg (by omega) (by norm_num [FrameSize])
    omega
  · rw [Int.tdiv_eq_ediv (by omega) (by norm_num [FrameSize])]
    rw [Int.ediv_eq_zero_of_lt (by omega) h]

end Replayfile

namespace Ogg

theorem encodeWithCRC_crc_field (p : Page) (crc : Nat) :
    ((p.encodeWithCRC crc).drop 22).take 4 = toLE 4 crc := by
  have hshape : p.encodeWithCRC crc
      = ([0x4F, 0x67, 0x67, 0x53] ++ [0] ++ [headerTypeByte p.header]
          ++ granuleBytes p.header.granulePosition
          ++ toLE 4 p.header.bitstreamSerialNumber
          ++ toLE 4 p.header.pageSequenceNumber)
        ++ (toLE 4 crc ++ ([p.header.segmentTable.length % 256]
          ++ (p.header.segmentTable ++ p.segments))) := by
    simp [Page.encodeWithCRC, PageHeader.encodeWithCRC, List.append_assoc]
  rw [hshape]
  rw [List.drop_left' (by simp [toLE_length, granuleBytes])]
  rw [List.take_left' (toLE_length 4 crc)]

theorem expectedPagesFrom_getElem (l : List (List Nat × Int)) :
    ∀ (seq i : Nat),
      (expectedPagesFrom false seq l)[i]?
        = (l[i]?).map (fun pr => expectedPage 0 pr.2 (seq + i) pr.1) := by
  induction l with
  | nil => intro seq i; simp [expectedPagesFrom]
  | cons pr rest ih =>
    intro seq i
    obtain ⟨d, g⟩ := pr
    cases i with
    | zero => simp [expectedPagesFrom]
    | succ i =>
      show (expectedPage 0 g seq d
        :: expectedPagesFrom false (seq + 1) rest)[i + 1]? = _
      rw [List.getElem?_cons_succ, ih]
      rw [List.getElem?_cons_succ]
      rw [show seq + 1 + i = seq + (i + 1) by omega]

theorem expectedPagesFrom_crcValid (l : List (List Nat × Int)) :
    ∀ (first : Bool) (seq : Nat),
      ∀ pg ∈ expectedPagesFrom first seq l, pg.crcValid = true := by
  induction l with
  | nil => intro first seq pg hpg; simp [expectedPagesFrom] at hpg
  | cons pr rest ih =>
    intro first seq pg hpg
    obtain ⟨d, g⟩ := pr
    rcases List.mem_cons.mp hpg with rfl | hpg
    · rfl
    · exact ih false (seq + 1) pg hpg

end Ogg

namespace Claims

open Circular Ogg Replayfile

/-- Claim C4: for every sequence of `k` packets added to a fresh ring
buffer of capacity `SIZE = 90000`, iterating a snapshot yields the last
`min k SIZE` packets in insertion order: all `k` of them when `k ≤ SIZE`,
and exactly `SIZE` packets starting with the `(k − SIZE)`-th inserted
(0-indexed) when `k > SIZE` — i.e. the snapshot equals
`ps.drop (k − SIZE)`. -/
theorem c4_ring_buffer_snapshot (ps : List Circular.AudioPacket) :
    (ps.foldl Circular.Buffer.add Circular.Buffer.empty).snapshotList
        = ps.drop (ps.length - 90000) ∧
    (ps.foldl Circular.Buffer.add Circular.Buffer.empty).snapshotList.length
        = min ps.length 90000 := by
  have h := Circular.snapshotList_eq_drop ps
  refine ⟨h, ?_⟩
  rw [h, List.length_drop]
  omega

/-- Claim C8: `Iterator.Next` hits its precondition-violation branch
(embedded as `none`) exactly when the iterator is exhausted
(`HasNext` false); whenever `HasNext` holds, `Next` succeeds. -/
theorem c8_iterator_next_precondition (it : Circular.Iterator) :
    (it.next = none ↔ it.hasNext = false) ∧
    (it.hasNext = true → ∃ v it', it.next = some (v, it')) := by
  unfold Circular.Iterator.next
  by_cases h : it.hasNext = true
  · rw [if_pos h]
    refine ⟨⟨fun hc => Option.noConfusion hc, fun hf => ?_⟩,
      fun _ => ⟨_, _, rfl⟩⟩
    rw [hf] at h
    exact Bool.noConfusion h
  · rw [if_neg h]
    have hf : it.hasNext = false := by
      revert h
      cases it.hasNext <;> simp
    exact ⟨⟨fun _ => hf, fun _ => rfl⟩, fun ht => absurd ht h⟩

/-- Claim C8 witness: a concrete non-exhausted iterator on which `Next`
succeeds, and a concrete exhausted one on which it returns the
precondition-violation branch. -/
theorem c8_iterator_next_precondition_witness :
    (((⟨Circular.Buffer.empty, 0, 1⟩ : Circular.Iterator).next = none
        ↔ (⟨Circular.Buffer.empty, 0, 1⟩ : Circular.Iterator).hasNext = false) ∧
      ((⟨Circular.Buffer.empty, 0, 1⟩ : Circular.Iterator).hasNext = true →
        ∃ v it', (⟨Circular.Buffer.empty, 0, 1⟩ : Circular.Iterator).next
          = some (v, it'))) ∧
    (((⟨Circular.Buffer.empty, 0, 0⟩ : Circular.Iterator).next = none
        ↔ (⟨Circular.Buffer.empty, 0, 0⟩ : Circular.Iterator).hasNext = false) ∧
      ((⟨Circular.Buffer.empty, 0, 0⟩ : Circular.Iterator).hasNext = true →
        ∃ v it', (⟨Circular.Buffer.empty, 0, 0⟩ : Circular.Iterator).next
          = some (v, it'))) :=
  ⟨c8_iterator_next_precondition _, c8_iterator_next_precondition _⟩

/-- Claim C9: from the zero-value buffer, every sequence of `Add` and
`Reset` operations preserves `0 ≤ size ≤ SIZE` and
`0 ≤ nextPosition < SIZE`; consequently the start position
`WithIterator` computes is a valid index and every `Next` call of a full
drain reads an in-bounds slot. -/
theorem c9_buffer_invariant (ops : List Circular.Op) :
    Circular.BufferInv (ops.foldl Circular.applyOp Circular.Buffer.empty) ∧
    (0 ≤ (ops.foldl Circular.applyOp Circular.Buffer.empty).startPosition ∧
      (ops.foldl Circular.applyOp Circular.Buffer.empty).startPosition
        < Circular.SIZE) ∧
    (∀ q ∈ (ops.foldl Circular.applyOp
        Circular.Buffer.empty).iter.drainPositions
        (ops.foldl Circular.applyOp Circular.Buffer.empty).size.toNat,
      0 ≤ q ∧ q < Circular.SIZE) := by
  have hinv := Circular.bufferInv_foldl ops
  have hsp := Circular.startPosition_range hinv
  exact ⟨hinv, hsp, Circular.drainPositions_range hsp _⟩

end Claims

namespace Claims

open Ogg

/-- Claim C5: `bitstreamEncoder.Encode` splits every payload into
segments of at most 255 bytes recorded in the page's segment table
(`replicate (len/255) 255 ++ [len % 255]`), appending a trailing
zero-length segment exactly when the length is a multiple of 255
(including length 0); the hypothesis `len ≤ 65024` excludes the payloads
on which `AddSegment` hits its page-full precondition violation
(spec §7). -/
theorem c5_segment_table_split (firstPage : Bool) (seq : Nat) (g : Int)
    (data : List Nat) (h : data.length ≤ 65024) :
    ∃ p : Ogg.Page, Ogg.buildPacketPage firstPage seq data g = some p ∧
      p.header.segmentTable
        = List.replicate (data.length / 255) 255 ++ [data.length % 255] ∧
      p.segments = data ∧
      (∀ n ∈ p.header.segmentTable, n ≤ 255) ∧
      (data.length % 255 = 0 → p.header.segmentTable.getLast? = some 0) := by
  refine ⟨_, Ogg.buildPacketPage_eq firstPage seq g data h, rfl, rfl, ?_, ?_⟩
  · intro n hn
    rcases List.mem_append.mp hn with h1 | h1
    · rw [List.eq_of_mem_replicate h1]
    · rw [List.mem_singleton.mp h1]
      omega
  · intro hz
    show (List.replicate (data.length / 255) 255
      ++ [data.length % 255]).getLast? = some 0
    rw [List.getLast?_concat, hz]

set_option maxRecDepth 8000 in
/-- Claim C5 witness: a 510-byte payload yields the table
`[255, 255, 0]` (ending in a zero-length segment), and a 0-byte payload
yields the single zero-length segment `[0]`. -/
theorem c5_segment_table_split_witness :
    ((List.replicate 510 (7 : Nat)).length ≤ 65024 ∧
      ∃ p : Ogg.Page,
        Ogg.buildPacketPage true 3 (List.replicate 510 (7 : Nat)) 0
          = some p ∧
        p.header.segmentTable
          = List.replicate ((List.replicate 510 (7 : Nat)).length / 255) 255
            ++ [(List.replicate 510 (7 : Nat)).length % 255] ∧
        p.segments = List.replicate 510 (7 : Nat) ∧
        (∀ n ∈ p.header.segmentTable, n ≤ 255) ∧
        ((List.replicate 510 (7 : Nat)).length % 255 = 0 →
          p.header.segmentTable.getLast? = some 0)) ∧
    (([] : List Nat).length ≤ 65024 ∧
      ∃ p : Ogg.Page, Ogg.buildPacketPage true 1 ([] : List Nat) 0 = some p ∧
        p.header.segmentTable
          = List.replicate (([] : List Nat).length / 255) 255
            ++ [([] : List Nat).length % 255] ∧
        p.segments = ([] : List Nat) ∧
        (∀ n ∈ p.header.segmentTable, n ≤ 255) ∧
        (([] : List Nat).length % 255 = 0 →
          p.header.segmentTable.getLast? = some 0)) :=
  ⟨⟨by decide, c5_segment_table_split true 3 0 _ (by decide)⟩,
   ⟨by decide, c5_segment_table_split true 1 0 [] (by decide)⟩⟩

/-- Claim C6: the checksum `page.Encode` stores in bytes 22–25 of the
header equals the MSB-first polynomial-0x04C11DB7 CRC-32 of the entire
page (header plus all segment bytes) serialized with the checksum field
zeroed; `crcOfBytes` is the bit-serial spec-side definition, proved
equal to the table-driven fold the code uses. -/
theorem c6_page_checksum (p : Ogg.Page)
    (hentries : ∀ n ∈ p.header.segmentTable, n ≤ 255)
    (hsegb : ∀ b ∈ p.segments, b < 256) :
    p.encode = p.encodeWithCRC (Ogg.crcOfBytes (p.encodeWithCRC 0)) ∧
    ((p.encode).drop 22).take 4
      = Ogg.toLE 4 (Ogg.crcOfBytes (p.encodeWithCRC 0)) := by
  have hrw : Ogg.crcFold (p.encodeWithCRC 0)
      = Ogg.crcOfBytes (p.encodeWithCRC 0) :=
    Ogg.crcFold_eq_crcOfBytes _
      (Ogg.encodeWithCRC_bytes_lt p 0 (by norm_num) hentries hsegb)
  constructor
  · show p.encodeWithCRC (Ogg.crcFold (p.encodeWithCRC 0)) = _
    rw [hrw]
  · show ((p.encodeWithCRC (Ogg.crcFold (p.encodeWithCRC 0))).drop 22).take 4
      = _
    rw [hrw, Ogg.encodeWithCRC_crc_field]

/-- Claim C6 witness: a concrete one-segment page whose stored checksum
field equals the bit-serial CRC-32 of the zeroed page. -/
theorem c6_page_checksum_witness :
    (∀ n ∈ (Ogg.Page.mk
        ⟨false, true, false, 0, 1, 1, [3]⟩ [9, 9, 9]).header.segmentTable,
      n ≤ 255) ∧
    (∀ b ∈ (Ogg.Page.mk ⟨false, true, false, 0, 1, 1, [3]⟩ [9, 9, 9]).segments,
      b < 256) ∧
    ((Ogg.Page.mk ⟨false, true, false, 0, 1, 1, [3]⟩ [9, 9, 9]).encode
        = (Ogg.Page.mk ⟨false, true, false, 0, 1, 1, [3]⟩
            [9, 9, 9]).encodeWithCRC
          (Ogg.crcOfBytes ((Ogg.Page.mk ⟨false, true, false, 0, 1, 1, [3]⟩
            [9, 9, 9]).encodeWithCRC 0)) ∧
      (((Ogg.Page.mk ⟨false, true, false, 0, 1, 1, [3]⟩
          [9, 9, 9]).encode).drop 22).take 4
        = Ogg.toLE 4 (Ogg.crcOfBytes ((Ogg.Page.mk
            ⟨false, true, false, 0, 1, 1, [3]⟩ [9, 9, 9]).encodeWithCRC 0))) :=
  ⟨by decide, by decide, c6_page_checksum _ (by decide) (by decide)⟩

end Claims

namespace Claims

open Ogg

/-- Claim C2: for every sequence of `Encode(payload, granule)` calls on
a newly constructed encoder (payloads below the page-capacity
precondition, granules in int64 range, at most `2^32 − 3` calls so the
uint32 page counter does not wrap), the conforming spec-side parser
recovers: the identification header page first (its payload decoding to
the configured channel count, pre-skip, sample rate, gain and mapping
family), the comment header page with vendor `"discord-replay"` and
zero user comments, each payload on its own page at exactly the supplied
granule position, and a valid CRC-32 on every page. -/
theorem c2_encoder_parser_roundtrip (inputs : List (List Nat × Int))
    (hwf : ∀ pr ∈ inputs, pr.1.length ≤ 65024 ∧ (∀ b ∈ pr.1, b < 256) ∧
      -(2 : Int) ^ 63 ≤ pr.2 ∧ pr.2 < 2 ^ 63)
    (hcount : inputs.length ≤ 4294967293) :
    ∃ bs pages, Ogg.encoderOutput inputs = some bs ∧
      Ogg.parsePages bs = some pages ∧
      pages = Ogg.expectedPage 2 0 1 Ogg.idHeaderBytes
        :: Ogg.expectedPage 0 0 2 Ogg.commentHeaderBytes
        :: Ogg.expectedPagesFrom false 3 inputs ∧
      Ogg.parseOpusHead Ogg.idHeaderBytes
        = some (Ogg.ChannelCount, Ogg.PreSkip, Ogg.SamplingRateHz, Ogg.Gain,
            Ogg.MappingFamily) ∧
      Ogg.parseOpusTags Ogg.commentHeaderBytes
        = some (Ogg.vendorDiscordReplay, 0) ∧
      (∀ i : Nat, (pages.drop 2)[i]? = (inputs[i]?).map
        (fun pr => Ogg.expectedPage 0 pr.2 (3 + i) pr.1)) ∧
      (∀ pg ∈ pages, pg.crcValid = true) := by
  obtain ⟨bs, hbs, hparse⟩ := Ogg.encodeAll_parse
    ((Ogg.idHeaderBytes, 0) :: (Ogg.commentHeaderBytes, 0) :: inputs) 1 true
    (by
      intro pr hpr
      rcases List.mem_cons.mp hpr with rfl | hpr
      · exact ⟨by decide, by decide, by decide, by decide⟩
      rcases List.mem_cons.mp hpr with rfl | hpr
      · exact ⟨by decide, by decide, by decide, by decide⟩
      · exact hwf pr hpr)
    (by simp only [List.length_cons]; omega)
  have hp : Ogg.parsePages bs = some (Ogg.expectedPagesFrom true 1
      ((Ogg.idHeaderBytes, 0) :: (Ogg.commentHeaderBytes, 0) :: inputs)) :=
    hparse bs.length (le_refl _)
  refine ⟨bs, _, hbs, hp, rfl, by decide, by decide, ?_, ?_⟩
  · intro i
    exact Ogg.expectedPagesFrom_getElem inputs 3 i
  · intro pg hpg
    rcases List.mem_cons.mp hpg with rfl | hpg
    · rfl
    rcases List.mem_cons.mp hpg with rfl | hpg
    · rfl
    · exact Ogg.expectedPagesFrom_crcValid inputs false 3 pg hpg

/-- Claim C2 witness: a single one-byte payload at granule 960 is
recovered by the parser on its own page at granule 960 with valid
checksums throughout. -/
theorem c2_encoder_parser_roundtrip_witness :
    (∀ pr ∈ [(([5] : List Nat), (960 : Int))],
      pr.1.length ≤ 65024 ∧ (∀ b ∈ pr.1, b < 256) ∧
      -(2 : Int) ^ 63 ≤ pr.2 ∧ pr.2 < 2 ^ 63) ∧
    ([(([5] : List Nat), (960 : Int))].length ≤ 4294967293) ∧
    (∃ bs pages,
      Ogg.encoderOutput [(([5] : List Nat), (960 : Int))] = some bs ∧
      Ogg.parsePages bs = some pages ∧
      pages = Ogg.expectedPage 2 0 1 Ogg.idHeaderBytes
        :: Ogg.expectedPage 0 0 2 Ogg.commentHeaderBytes
        :: Ogg.expectedPagesFrom false 3 [(([5] : List Nat), (960 : Int))] ∧
      Ogg.parseOpusHead Ogg.idHeaderBytes
        = some (Ogg.ChannelCount, Ogg.PreSkip, Ogg.SamplingRateHz, Ogg.Gain,
            Ogg.MappingFamily) ∧
      Ogg.parseOpusTags Ogg.commentHeaderBytes
        = some (Ogg.vendorDiscordReplay, 0) ∧
      (∀ i : Nat, (pages.drop 2)[i]?
        = (([(([5] : List Nat), (960 : Int))])[i]?).map
          (fun pr => Ogg.expectedPage 0 pr.2 (3 + i) pr.1)) ∧
      (∀ pg ∈ pages, pg.crcValid = true)) :=
  ⟨by decide, by decide,
    c2_encoder_parser_roundtrip _ (by decide) (by decide)⟩

end Claims

namespace Claims

open Replayfile

/-- Claim C7: a replay build reports the distinguished `NoAudioData`
condition, creating no per-speaker file, exactly when no packet passes
the age filter (snapshot empty or every packet at least
`recordingDuration` old); otherwise it returns one file per speaker
observed among the eligible packets, in first-seen order. -/
theorem c7_no_audio_data_iff (now dur : Int)
    (pkts : List Circular.AudioPacket) :
    (Replayfile.create now dur pkts = Replayfile.CreateResult.noAudioData ↔
      ∀ p ∈ pkts, now - p.time ≥ dur) ∧
    (∀ strs, Replayfile.create now dur pkts
        = Replayfile.CreateResult.files strs →
      strs ≠ [] ∧
      strs.map Prod.fst = Replayfile.firstSeen
        ((pkts.filter (Replayfile.eligible now dur)).map (fun p => p.ssrc)) ∧
      ∀ s : Nat, s ∈ strs.map Prod.fst ↔
        ∃ p ∈ pkts, Replayfile.eligible now dur p = true ∧ p.ssrc = s) := by
  have hkeys := Replayfile.createStreamFiles_keys now dur pkts
  have hempty : Replayfile.createStreamFiles now dur pkts = [] ↔
      ∀ p ∈ pkts, now - p.time ≥ dur := by
    constructor
    · intro h
      have h2 : (Replayfile.createStreamFiles now dur pkts).map Prod.fst
          = [] := by rw [h]; rfl
      rw [hkeys, Replayfile.firstSeen_eq_nil_iff, List.map_eq_nil_iff,
        List.filter_eq_nil_iff] at h2
      intro p hp
      have h3 := h2 p hp
      simp only [Replayfile.eligible, decide_eq_true_eq] at h3
      omega
    · intro h
      have h2 : pkts.filter (Replayfile.eligible now dur) = [] := by
        rw [List.filter_eq_nil_iff]
        intro p hp
        simp only [Replayfile.eligible, decide_eq_true_eq]
        have := h p hp
        omega
      have h3 := hkeys
      rw [h2] at h3
      exact List.map_eq_nil_iff.mp (h3.trans rfl)
  constructor
  · unfold Replayfile.create
    dsimp only
    split
    · rename_i hc
      exact ⟨fun _ => hempty.mp hc, fun _ => rfl⟩
    · rename_i hc
      constructor
      · intro habs
        exact Replayfile.CreateResult.noConfusion habs
      · intro hall
        exact absurd (hempty.mpr hall) hc
  · intro strs hstrs
    unfold Replayfile.create at hstrs
    dsimp only at hstrs
    split at hstrs
    · exact Replayfile.CreateResult.noConfusion hstrs
    · rename_i hc
      injection hstrs with hs
      refine ⟨fun hnil => hc (hs.symm ▸ hnil), hs ▸ hkeys, ?_⟩
      intro s
      rw [← hs, hkeys]
      unfold Replayfile.firstSeen
      rw [Replayfile.seen_foldl_mem]
      simp only [List.not_mem_nil, false_or]
      rw [List.mem_map]
      constructor
      · rintro ⟨p, hp, rfl⟩
        have hm := List.mem_filter.mp hp
        exact ⟨p, hm.1, hm.2, rfl⟩
      · rintro ⟨p, hp, he, rfl⟩
        exact ⟨p, List.mem_filter.mpr ⟨hp, he⟩, rfl⟩

/-- Claim C7 witness: a wholly aged-out single-packet history yields the
`NoAudioData` condition, and a fresh one yields one file for its
speaker. -/
theorem c7_no_audio_data_iff_witness :
    ((Replayfile.create 100 50
        [{ time := 0, ssrc := 1, pcmIndex := 0, opus := [1] }]
        = Replayfile.CreateResult.noAudioData ↔
      ∀ p ∈ [({ time := 0, ssrc := 1, pcmIndex := 0, opus := [1] }
          : Circular.AudioPacket)], (100 : Int) - p.time ≥ 50) ∧
    (∀ strs, Replayfile.create 100 50
        [{ time := 0, ssrc := 1, pcmIndex := 0, opus := [1] }]
        = Replayfile.CreateResult.files strs →
      strs ≠ [] ∧
      strs.map Prod.fst = Replayfile.firstSeen
        (([({ time := 0, ssrc := 1, pcmIndex := 0, opus := [1] }
            : Circular.AudioPacket)].filter
          (Replayfile.eligible 100 50)).map (fun p => p.ssrc)) ∧
      ∀ s : Nat, s ∈ strs.map Prod.fst ↔
        ∃ p ∈ [({ time := 0, ssrc := 1, pcmIndex := 0, opus := [1] }
            : Circular.AudioPacket)],
          Replayfile.eligible 100 50 p = true ∧ p.ssrc = s)) ∧
    ((Replayfile.create 100 500
        [{ time := 0, ssrc := 1, pcmIndex := 0, opus := [1] }]
        = Replayfile.CreateResult.noAudioData ↔
      ∀ p ∈ [({ time := 0, ssrc := 1, pcmIndex := 0, opus := [1] }
          : Circular.AudioPacket)], (100 : Int) - p.time ≥ 500) ∧
    (∀ strs, Replayfile.create 100 500
        [{ time := 0, ssrc := 1, pcmIndex := 0, opus := [1] }]
        = Replayfile.CreateResult.files strs →
      strs ≠ [] ∧
      strs.map Prod.fst = Replayfile.firstSeen
        (([({ time := 0, ssrc := 1, pcmIndex := 0, opus := [1] }
            : Circular.AudioPacket)].filter
          (Replayfile.eligible 100 500)).map (fun p => p.ssrc)) ∧
      ∀ s : Nat, s ∈ strs.map Prod.fst ↔
        ∃ p ∈ [({ time := 0, ssrc := 1, pcmIndex := 0, opus := [1] }
            : Circular.AudioPacket)],
          Replayfile.eligible 100 500 p = true ∧ p.ssrc = s)) :=
  ⟨c7_no_audio_data_iff 100 50 _, c7_no_audio_data_iff 100 500 _⟩

/-- Claim C10: for any eligible packet of an already-seen speaker, with
`gap = sampleIndex − (lastEmittedSampleIndex + FrameSize)`: the stream
gains exactly the truncated-quotient silent frames followed by the real
payload at its own `sampleIndex` as granule position, and
`lastPCMIndex` becomes that `sampleIndex`; a gap below one frame
(including zero and negative gaps) emits no silent frames; a positive
gap emits exactly `⌊gap / FrameSize⌋` silent frames. -/
theorem c10_gap_emission (now dur : Int) (st : Replayfile.SyncState)
    (pkt : Circular.AudioPacket) (s0 : Replayfile.StreamState)
    (helig : now - pkt.time < dur)
    (hlook : Replayfile.lookupStream st.streams pkt.ssrc = some s0) :
    Replayfile.lookupStream (Replayfile.stepPkt now dur st pkt).streams
        pkt.ssrc
      = some { lastPCMIndex := (pkt.pcmIndex : Int),
               frames := s0.frames
                 ++ Replayfile.padFrames s0.lastPCMIndex
                     (Int.tdiv ((pkt.pcmIndex : Int)
                       - (s0.lastPCMIndex + Replayfile.FrameSize))
                       Replayfile.FrameSize)
                 ++ [(pkt.opus, (pkt.pcmIndex : Int))] } ∧
    ((pkt.pcmIndex : Int) - (s0.lastPCMIndex + Replayfile.FrameSize)
        < Replayfile.FrameSize →
      Replayfile.padFrames s0.lastPCMIndex
        (Int.tdiv ((pkt.pcmIndex : Int)
          - (s0.lastPCMIndex + Replayfile.FrameSize))
          Replayfile.FrameSize) = []) ∧
    (0 < (pkt.pcmIndex : Int) - (s0.lastPCMIndex + Replayfile.FrameSize) →
      ((Replayfile.padFrames s0.lastPCMIndex
          (Int.tdiv ((pkt.pcmIndex : Int)
            - (s0.lastPCMIndex + Replayfile.FrameSize))
            Replayfile.FrameSize)).length : Int)
        = ((pkt.pcmIndex : Int) - (s0.lastPCMIndex + Replayfile.FrameSize))
            / Replayfile.FrameSize) := by
  refine ⟨?_, ?_, ?_⟩
  · unfold Replayfile.stepPkt
    rw [if_neg (by omega)]
    dsimp only
    unfold Replayfile.stepE
    rw [hlook]
    dsimp only
    rw [Replayfile.lookupStream_update_self _ st.streams pkt.ssrc s0 hlook]
    rfl
  · intro hgap
    have hnp := Replayfile.tdiv_nonpos_of_lt_frame hgap
    unfold Replayfile.padFrames
    rw [show (Int.tdiv ((pkt.pcmIndex : Int)
      - (s0.lastPCMIndex + Replayfile.FrameSize))
      Replayfile.FrameSize).toNat = 0 by omega]
    rfl
  · intro hpos
    rw [Replayfile.padFrames_length]
    rw [Int.tdiv_eq_ediv (by omega) (by norm_num [Replayfile.FrameSize])]
    exact Int.toNat_of_nonneg
      (Int.ediv_nonneg (by omega) (by norm_num [Replayfile.FrameSize]))

/-- Claim C10 witness: a packet two whole frames past the previous one
(gap 1920) produces two silent frames then the payload; the concrete
hypotheses are discharged by evaluation. -/
theorem c10_gap_emission_witness :
    ((0 : Int) - 0 < 10) ∧
    (Replayfile.lookupStream
        ({ startTime := some 0, streams := [(5, ⟨0, []⟩)] }
          : Replayfile.SyncState).streams 5
      = some (⟨0, []⟩ : Replayfile.StreamState)) ∧
    (Replayfile.lookupStream (Replayfile.stepPkt 0 10
        { startTime := some 0, streams := [(5, ⟨0, []⟩)] }
        { time := 0, ssrc := 5, pcmIndex := 2880, opus := [7] }).streams 5
      = some { lastPCMIndex := ((2880 : Nat) : Int),
               frames := ([] : List (List Nat × Int))
                 ++ Replayfile.padFrames 0
                     (Int.tdiv (((2880 : Nat) : Int)
                       - (0 + Replayfile.FrameSize)) Replayfile.FrameSize)
                 ++ [([7], ((2880 : Nat) : Int))] } ∧
    ((((2880 : Nat) : Int) - (0 + Replayfile.FrameSize)
        < Replayfile.FrameSize →
      Replayfile.padFrames 0
        (Int.tdiv (((2880 : Nat) : Int) - (0 + Replayfile.FrameSize))
          Replayfile.FrameSize) = [])) ∧
    ((0 < ((2880 : Nat) : Int) - (0 + Replayfile.FrameSize) →
      ((Replayfile.padFrames 0
          (Int.tdiv (((2880 : Nat) : Int) - (0 + Replayfile.FrameSize))
            Replayfile.FrameSize)).length : Int)
        = (((2880 : Nat) : Int) - (0 + Replayfile.FrameSize))
            / Replayfile.FrameSize))) :=
  ⟨by decide, by decide,
    c10_gap_emission 0 10 ⟨some 0, [(5, ⟨0, []⟩)]⟩
      ⟨0, 5, 2880, [7]⟩ ⟨0, []⟩ (by decide) (by decide)⟩

end Claims

namespace Claims

open Replayfile

/-- Claim C1 (divergence evidence): with speaker 1's first eligible
packet at t = 0 and speaker 2's at t = 500 ms, the computed lead-in is
24000 samples, yet `createStreamFiles` initializes
`lastPCMIndex = sampleIndex − leadInSamples` (without the extra
`− FrameSize` the spec describes) and therefore emits only 24 silent
frames = 23040 samples of silence before speaker 2's first real frame,
not 24000. -/
theorem c1_leadin_silence_short_by_one_frame :
    Replayfile.leadInSamples 0 500000000 = 24000 ∧
    Replayfile.lookupStream (Replayfile.createStreamFiles 500000000 600000000
        [{ time := 0, ssrc := 1, pcmIndex := 0, opus := [1] },
         { time := 500000000, ssrc := 2, pcmIndex := 50000, opus := [2] }]) 2
      = some { lastPCMIndex := 50000,
               frames := Replayfile.padFrames 26000 24 ++ [([2], 50000)] } ∧
    (∀ f ∈ Replayfile.padFrames 26000 24, f.1 = Replayfile.silentFrame) ∧
    (Replayfile.padFrames 26000 24).length * 960 = 23040 ∧
    (23040 : Nat) ≠ 24000 := by
  refine ⟨by decide, by decide, by decide, by decide, by decide⟩

/-- Claim C3 (divergence evidence): a speaker whose 32-bit counter wraps
between consecutive packets (`2^32 − 960`, then `960`, true unwrapped
gap `960` = one lost frame, so one silent frame is required) gets no
silent frame at all: the code converts the wrapped counter absolutely
(`int64(pkt.PCMIndex)`), making the computed gap negative and the next
granule position jump backwards by almost `2^32`. -/
theorem c3_wraparound_counter_read_absolutely :
    Replayfile.createStreamFiles 20000000 600000000
        [{ time := 0, ssrc := 7, pcmIndex := 4294966336, opus := [1] },
         { time := 20000000, ssrc := 7, pcmIndex := 960, opus := [2] }]
      = [(7, { lastPCMIndex := 960,
               frames := [([1], 4294966336), ([2], 960)] })] ∧
    Int.tdiv ((4294967296 + 960) - (4294966336 + 960)) Replayfile.FrameSize
      = 1 ∧
    (([(([1] : List Nat), (4294966336 : Int)), ([2], 960)]).filter
      (fun f => f.1 == Replayfile.silentFrame)).length = 0 ∧
    (960 : Int) < 4294966336 := by
  refine ⟨by decide, by decide, by decide, by decide⟩

end Claims
